import Mathlib

/-!
Verification of `whipper/image/table.py` (table-of-contents model of an
optical audio disc).

The Python module is shallowly embedded below.  Python `int` becomes `Int`
(Python 2 `/` on ints is floor division, embedded as `Int.fdiv`; `%` as
`Int.fmod`; `<<` as multiplication by a power of two; `|` as `Int.lor`).
Optional fields that the source initializes to `None` become `Option _`
values, and the Python 2 orderings `None < anything` used by implicit
comparisons are embedded explicitly.  Methods that can raise become
`Except PyErr _` computations; the unbounded `while` loops of the source
(which advance strictly through the finite index traversal) are embedded
with an explicit fuel argument that is chosen larger than the number of
indexes, with fuel exhaustion mapped to a distinguished error value.

Python 2 dictionaries keyed by the small track-index numbers used here
(index numbers below 8, a handful of entries) iterate their keys in
ascending numeric order, so `Track.indexes` is embedded as the list of
`Index` values in insertion order and `dict.keys()` as the sorted list of
their numbers.
-/

/-- The exception classes that the embedded methods can raise, plus a
`outOfFuel` marker used only when the explicit fuel of an embedded loop is
exhausted (never reached for the fuel bounds chosen by the wrappers on
well-formed tables). -/
inductive PyErr where
  | indexError
  | keyError
  | valueError
  | typeError
  | assertionError
  | outOfFuel
deriving Repr, DecidableEq

deriving instance DecidableEq for Except

/-- Python 2 `a < b` on two optional ints: `None` is smaller than every
int, and `None < None` is false. -/
def pyLtOpt : Option Int → Option Int → Bool
  | none, none => false
  | none, some _ => true
  | some _, none => false
  | some a, some b => a < b

/-- Python 2 `a > b` on two optional ints. -/
def pyGtOpt (a b : Option Int) : Bool := pyLtOpt b a

/-- Python 2 truthiness of an optional int (`None` and `0` are falsy). -/
def pyTruthyInt : Option Int → Bool
  | none => false
  | some n => n ≠ 0

/-- Python 2 truthiness of an optional string (`None` and `""` are falsy). -/
def pyTruthyStr : Option String → Bool
  | none => false
  | some s => s ≠ ""

/-- Python `x << k` on an arbitrary-precision int with a nonnegative shift
amount: exactly multiplication by `2 ^ k`. -/
def pyShl (x : Int) (k : Nat) : Int := x * 2 ^ k

/-- Python `x | y` on arbitrary-precision ints (two's complement on
negatives), which is exactly `Int.lor`. -/
def pyOr (x y : Int) : Int := Int.lor x y

/-- Decimal digits of a natural number, via `Nat.toDigits`. -/
def natDecimal (n : Nat) : String := (Nat.toDigits 10 n).asString

/-- Lowercase hexadecimal digits of a natural number (`Nat.toDigits 16`
produces `0`-`9`, `a`-`f`). -/
def natHex (n : Nat) : String := (Nat.toDigits 16 n).asString

/-- Python `"%0Nx" % i`: zero-pad a string on the left to a minimum
width. -/
def zfill (width : Nat) (s : String) : String :=
  if width ≤ s.length then s
  else String.mk (List.replicate (width - s.length) '0') ++ s

/-- Python `"%0Nd" % i` on an int (negative values keep their sign in
front of the zero padding, as in Python). -/
def pyFormatDec (width : Nat) (i : Int) : String :=
  if i < 0 then "-" ++ zfill (width - 1) (natDecimal (-i).toNat)
  else zfill width (natDecimal i.toNat)

/-- Python `"%0Nx" % i` (lowercase hex). -/
def pyFormatHex (width : Nat) (i : Int) : String :=
  if i < 0 then "-" ++ zfill (width - 1) (natHex (-i).toNat)
  else zfill width (natHex i.toNat)

/-- Python `"%0NX" % i` (uppercase hex). -/
def pyFormatHexUpper (width : Nat) (i : Int) : String :=
  (pyFormatHex width i).map Char.toUpper

/-- `whipper.common.common.FRAMES_PER_SECOND`.  Modelled from the spec:
the `common` module is not part of the sources under verification; the
spec fixes a frame as 1/75 second. -/
def FRAMES_PER_SECOND : Int := 75

/-- An entry of `Track.indexes` (class `Index` of the source). -/
structure Index where
  number : Nat
  absolute : Option Int := none
  path : Option String := none
  relative : Option Int := none
  counter : Option Int := none
deriving Repr, DecidableEq

/-- A track entry (class `Track` of the source).  `indexes` holds the
`Index` values of the track's number-keyed dictionary. -/
structure Track where
  number : Nat
  audio : Bool := true
  session : Option Int := none
  isrc : Option String := none
  cdtext : List (String × String) := []
  pre_emphasis : Option Bool := none
  indexes : List Index := []
deriving Repr, DecidableEq

/-- The table of contents (class `Table` of the source).  `mbdiscid` is
the cached MusicBrainz disc id. -/
structure Table where
  tracks : List Track
  leadout : Option Int := none
  catalog : Option String := none
  cdtext : List (String × String) := []
  mbdiscid : Option String := none
deriving Repr, DecidableEq

/-- Lookup in a number-keyed dictionary represented as its value list
(the first entry with the key; a Python dict holds at most one). -/
def lookupIdx (n : Nat) : List Index → Option Index
  | [] => none
  | ix :: rest => if ix.number = n then some ix else lookupIdx n rest

namespace Track

/-- `self.indexes.keys()` in sorted order.  The source sorts explicitly in
`getFirstIndex`/`getLastIndex`/`cue`; in `getNextTrackIndex` it relies on
the CPython 2 iteration order of a small-int-keyed dict, which is the
ascending numeric order for the index numbers that occur on a disc. -/
def dictKeys (t : Track) : List Nat :=
  List.insertionSort (· ≤ ·) (t.indexes.map Index.number)

/-- `self.indexes[number]`: dictionary lookup. -/
def getIndex? (t : Track) (n : Nat) : Option Index :=
  lookupIdx n t.indexes

/-- `Track.getFirstIndex`: the index with the lowest number. -/
def getFirstIndex? (t : Track) : Option Index :=
  t.dictKeys.head?.bind t.getIndex?

/-- `Track.getLastIndex`: the index with the highest number. -/
def getLastIndex? (t : Track) : Option Index :=
  t.dictKeys.getLast?.bind t.getIndex?

/-- Replace every index numbered `n` by `f` of it (the dictionary holds at
most one such entry). -/
def writeIndex (t : Track) (n : Nat) (f : Index → Index) : Track :=
  { t with indexes := t.indexes.map (fun ix => if ix.number = n then f ix else ix) }

end Track

/-- In-place update of one list position (positions out of range are left
alone, matching an assignment through an existing Python reference). -/
def listModify : List α → Nat → (α → α) → List α
  | [], _, _ => []
  | a :: as, 0, f => f a :: as
  | a :: as, n + 1, f => a :: listModify as n f

namespace Table

/-- `self.tracks[number - 1]` (all call sites pass 1-based numbers). -/
def trackAt? (T : Table) (number : Nat) : Option Track :=
  T.tracks[number - 1]?

/-- The index object of track number `t`, dictionary key `i`. -/
def idxAt? (T : Table) (t i : Nat) : Option Index :=
  (T.trackAt? t).bind (fun tr => tr.getIndex? i)

/-- Apply `f` to the index numbered `i` of track number `t` (position
`t - 1` of the track list). -/
def writeIdx (T : Table) (t i : Nat) (f : Index → Index) : Table :=
  { T with tracks := listModify T.tracks (t - 1) (fun tr => tr.writeIndex i f) }

/-- Total number of `Index` entries of the table; the fuel bounds of the
embedded loops are derived from it. -/
def indexCount (T : Table) : Nat :=
  (T.tracks.map (fun tr => tr.indexes.length)).sum

/-- `Table._getSessionGap`. -/
def getSessionGap (_T : Table) (session : Int) : Int :=
  if session > 2 then 6900 else 11400

/-- `Table.getTrackStart`: the `absolute` of the track's index 1 (the
source returns the raw attribute, which may be `None`). -/
def getTrackStart (T : Table) (number : Nat) : Except PyErr (Option Int) :=
  match T.trackAt? number with
  | none => .error .indexError
  | some tr =>
    match tr.getIndex? 1 with
    | none => .error .keyError
    | some ix => .ok ix.absolute

/-- `Table.getTrackEnd`.  `end = self.leadout - 1` is evaluated first (a
`TypeError` if the leadout is unset); for a non-last track the end comes
from the next track's index 1, minus the session gap when the next track
starts a later session. -/
def getTrackEnd (T : Table) (number : Nat) : Except PyErr Int :=
  match T.leadout with
  | none => .error .typeError
  | some L =>
    if number < T.tracks.length then
      match T.tracks[number]? with
      | none => .error .indexError
      | some nextTrack =>
        match nextTrack.getIndex? 1 with
        | none => .error .keyError
        | some ix1 =>
          match ix1.absolute with
          | none => .error .typeError
          | some a =>
            match T.trackAt? number with
            | none => .error .indexError
            | some thisTrack =>
              if pyGtOpt nextTrack.session thisTrack.session then
                .ok (a - 1 - T.getSessionGap (nextTrack.session.getD 0))
              else
                .ok (a - 1)
    else
      .ok (L - 1)

/-- `Table.getTrackLength = end - start + 1`. -/
def getTrackLength (T : Table) (number : Nat) : Except PyErr Int := do
  let e ← T.getTrackEnd number
  let s? ← T.getTrackStart number
  match s? with
  | none => .error .typeError
  | some s => .ok (e - s + 1)

/-- `Table.getAudioTracks`: the number of audio tracks. -/
def getAudioTracks (T : Table) : Nat :=
  (T.tracks.filter (fun t => t.audio)).length

/-- `Table.hasDataTracks`. -/
def hasDataTracks (T : Table) : Bool :=
  (T.tracks.filter (fun t => !t.audio)).length > 0

/-- `Table.hasTOC`: leadout truthy, and every track carries an index 1
with a resolved absolute offset. -/
def hasTOC (T : Table) : Bool :=
  pyTruthyInt T.leadout &&
    T.tracks.all (fun t =>
      match t.getIndex? 1 with
      | none => false
      | some ix => ix.absolute ≠ none)

end Table

/-- Decimal digit sum of a natural number (fuel-driven so that the kernel
can evaluate it; `digitSumAux n n` always has enough fuel since `n / 10`
strictly decreases below `n`). -/
def digitSumAux : Nat → Nat → Nat
  | 0, _ => 0
  | fuel + 1, n => if n = 0 then 0 else n % 10 + digitSumAux fuel (n / 10)

/-- Decimal digit sum of a natural number. -/
def digitSum (n : Nat) : Nat := digitSumAux n n

/-- `Table._cddbSum`, fuel-driven: `ret += i % 10; i /= 10` while
`i > 0` (Python 2 floor semantics). -/
def cddbSumAux : Nat → Int → Int
  | 0, _ => 0
  | fuel + 1, i => if 0 < i then i.fmod 10 + cddbSumAux fuel (i.fdiv 10) else 0

/-- `Table._cddbSum`: the fuel `i.toNat` dominates the number of digits. -/
def cddbSum (i : Int) : Int := cddbSumAux i.toNat i

namespace Table

/-- One iteration of the checksum loop of `getCDDBValues`: the
150-frame-compensated offset is appended and its digit-sum of seconds
accumulated. -/
def cddbTrackStep (T : Table) (acc : Int × List Int) (track : Track) :
    Except PyErr (Int × List Int) := do
  let s? ← T.getTrackStart track.number
  match s? with
  | none => .error .typeError
  | some s =>
    let offset := s + 2 * FRAMES_PER_SECOND
    let seconds := offset.fdiv FRAMES_PER_SECOND
    .ok (acc.1 + cddbSum seconds, acc.2 ++ [offset])

/-- `Table.getCDDBValues`: `[discid value, audio track count,
150-compensated track offsets..., leadout seconds]`. -/
def getCDDBValues (T : Table) : Except PyErr (List Int) := do
  let audio : Int := T.getAudioTracks
  let acc ← T.tracks.foldlM (T.cddbTrackStep) ((0 : Int), ([] : List Int))
  let n := acc.1
  match T.tracks.getLast? with
  | none => .error .indexError
  | some last => do
    let e ← T.getTrackEnd last.number
    let leadout := e + 1
    let s1? ← T.getTrackStart 1
    match s1? with
    | none => .error .typeError
    | some s1 =>
      let startSeconds := s1.fdiv FRAMES_PER_SECOND
      let leadoutSeconds := leadout.fdiv FRAMES_PER_SECOND
      let t := leadoutSeconds - startSeconds
      let value :=
        pyOr (pyOr (pyShl (n.fmod 255) 24) (pyShl t 8)) (T.tracks.length : Int)
      .ok (value :: audio :: (acc.2 ++ [leadoutSeconds]))

/-- `Table.getCDDBDiscId`: `"%08x" % values[0]`. -/
def getCDDBDiscId (T : Table) : Except PyErr String := do
  let values ← T.getCDDBValues
  match values.head? with
  | none => .error .indexError
  | some v => .ok (pyFormatHex 8 v)

end Table

/-- Python `list.index`: position of the first occurrence (`None` stands
for the `ValueError` raise). -/
def listIndex [DecidableEq α] (x : α) : List α → Option Nat
  | [] => none
  | a :: as => if a = x then some 0 else (listIndex x as).map (· + 1)

namespace Table

/-- `Table.getNextTrackIndex`: the next `(track, index-number)` pair in
disc order; `indexError` on the last index of the last track (and on an
empty next track), `valueError` when `index` is not a key of `track`
(Python `list.index`). -/
def getNextTrackIndex (T : Table) (track index : Nat) :
    Except PyErr (Nat × Nat) :=
  match T.trackAt? track with
  | none => .error .indexError
  | some t =>
    let keys := t.dictKeys
    match listIndex index keys with
    | none => .error .valueError
    | some position =>
      if h : position + 1 < keys.length then
        .ok (track, keys.get ⟨position + 1, h⟩)
      else if track + 1 > T.tracks.length then
        .error .indexError
      else
        match T.trackAt? (track + 1) with
        | none => .error .indexError
        | some t2 =>
          match t2.dictKeys.head? with
          | none => .error .indexError
          | some k => .ok (track + 1, k)

end Table

/-- Effectful map over a list (a Python `for` loop building a list,
stopping at the first raised error). -/
def exceptMapM (f : α → Except ε β) : List α → Except ε (List β)
  | [] => .ok []
  | a :: as => do
    let b ← f a
    let bs ← exceptMapM f as
    .ok (b :: bs)

/-- Adjust one copied index during `merge`: shift a set absolute by the
pre-merge leadout plus gap, shift a set counter by the source counter
(`None` arithmetic raises `TypeError`, as in Python). -/
def mergeIndex (leadout : Option Int) (gap : Int) (sourceCounter : Option Int)
    (i : Index) : Except PyErr Index := do
  let abs2 ← match i.absolute with
    | none => .ok i.absolute
    | some a =>
      match leadout with
      | none => .error .typeError
      | some sl => .ok (some (a + sl + gap))
  let ctr2 ← match i.counter with
    | none => .ok i.counter
    | some c =>
      match sourceCounter with
      | none => .error .typeError
      | some sc => .ok (some (c + sc))
  .ok { i with absolute := abs2, counter := ctr2 }

/-- Deep-copy and renumber one track of `other` during `merge`. -/
def mergeTrack (leadout : Option Int) (gap : Int) (sourceCounter : Option Int)
    (trackCount : Nat) (session : Int) (track : Track) : Except PyErr Track := do
  let indexes2 ← exceptMapM (mergeIndex leadout gap sourceCounter) track.indexes
  .ok { track with number := track.number + trackCount,
                   session := some session, indexes := indexes2 }

namespace Table

/-- `Table.merge`: append a deep copy of every track of `other` as a
later session and grow the leadout by `other.leadout` plus the session
gap.  The result pairs the updated `self` with the `other` object as it
stands after the call: the source only reads `other`, deep-copying its
tracks before mutating them.  A raised error abandons the partially
mutated state, which no claim observes. -/
def merge (self other : Table) (session : Int) :
    Except PyErr (Table × Table) := do
  let gap := self.getSessionGap session
  let trackCount := self.tracks.length
  let lastTrack ← match self.tracks.getLast? with
    | none => .error .indexError
    | some t => .ok t
  let lastIndex ← match lastTrack.getLastIndex? with
    | none => .error .indexError
    | some i => .ok i
  let sourceCounter := lastIndex.counter
  let newTracks ← exceptMapM
    (mergeTrack self.leadout gap sourceCounter trackCount session) other.tracks
  let leadout2 ← match self.leadout, other.leadout with
    | some sl, some ol => .ok (some (sl + ol + gap))
    | _, _ => .error .typeError
  .ok ({ self with tracks := self.tracks ++ newTracks, leadout := leadout2 },
       other)

end Table

/-- One step of the offset loop of `_getMusicBrainzValues` for the
1-based position `i`: positions beyond the track list are skipped
(`except IndexError: pass`), non-audio tracks are skipped, audio tracks
contribute their 150-compensated index-1 offset (a missing index 1 is a
`KeyError`, an unresolved offset a `TypeError`, neither caught). -/
def mbOffsetStep (T : Table) (acc : List Int) (i : Nat) :
    Except PyErr (List Int) :=
  match T.trackAt? i with
  | none => .ok acc
  | some track =>
    if !track.audio then .ok acc
    else
      match track.getIndex? 1 with
      | none => .error .keyError
      | some ix =>
        match ix.absolute with
        | none => .error .typeError
        | some a => .ok (acc ++ [a + 150])

namespace Table

/-- `Table._getMusicBrainzValues`: `[1, audio track count,
150 + effective leadout, 150-compensated audio offsets of the first 99
positions...]`.  When the disc has data tracks the last track must be
one (assert), and the effective leadout is its index-1 offset minus
`11250 + 150`. -/
def getMusicBrainzValues (T : Table) : Except PyErr (List Int) := do
  let leadout ←
    if T.hasDataTracks then
      match T.tracks.getLast? with
      | none => .error .indexError
      | some last =>
        if last.audio then .error .assertionError
        else
          match last.getIndex? 1 with
          | none => .error .keyError
          | some ix =>
            match ix.absolute with
            | none => .error .typeError
            | some a => .ok (a - 11250 - 150)
    else
      match T.leadout with
      | none => .error .typeError
      | some L => .ok L
  let offsets ← (List.range' 1 99).foldlM (mbOffsetStep T) []
  .ok (1 :: (T.getAudioTracks : Int) :: (150 + leadout) :: offsets)

end Table

namespace Table

/-- The `while True` loop of `Table.absolutize`, at position
`(t, i)` with the running `counter`.  One iteration: look the index up
(the asserts of the source are the `assertionError` branches), break on a
missing or different counter, raise `ValueError` when a set absolute
disagrees with the relative offset, write `absolute := relative` (through
the dictionary, so every index numbered `i` of the track, of which there
is one), then follow `getNextTrackIndex`, breaking on its `IndexError`.
The fuel only bounds the iteration count; `absolutize` passes more fuel
than there are indexes to visit. -/
def absLoop (T : Table) (t i : Nat) (counter : Option Int) :
    Nat → Except PyErr Table
  | 0 => .error .outOfFuel
  | fuel + 1 =>
    match T.trackAt? t with
    | none => .error .indexError
    | some track =>
      match track.getIndex? i with
      | none => .error .keyError
      | some index =>
        if track.number ≠ t then .error .assertionError
        else if index.number ≠ i then .error .assertionError
        else if index.counter = none then .ok T
        else if index.counter ≠ counter then .ok T
        else if index.absolute ≠ none ∧ index.absolute ≠ index.relative then
          .error .valueError
        else
          let T2 := T.writeIdx t i (fun ix => { ix with absolute := ix.relative })
          match T2.getNextTrackIndex t i with
          | .error .indexError => .ok T2
          | .error e => .error e
          | .ok (t2, i2) => T2.absLoop t2 i2 counter fuel

/-- `Table.absolutize`: walk from the first track's first index for as
long as the counter matches the first index's counter, setting
`absolute := relative`. -/
def absolutize (T : Table) : Except PyErr Table :=
  match T.tracks[0]? with
  | none => .error .indexError
  | some tr0 =>
    match tr0.getFirstIndex? with
    | none => .error .indexError
    | some index => T.absLoop tr0.number index.number index.counter (T.indexCount + 1)

/-- The `while i.absolute <= end` loop of `Table.setFile`.  An
unresolved absolute on a visited index is the `TypeError` of
`None - start` (Python 2 compares `None <= end` as true first); a raised
error abandons the partially written state, which no claim observes.
The final lookups of the source's `try` block are re-done at the loop
head, on the pair `getNextTrackIndex` validated. -/
def setFileLoop (path : Option String) (start endv : Int)
    (counter : Option Int) :
    Nat → Table → Nat → Nat → Except PyErr Table
  | 0, _, _, _ => .error .outOfFuel
  | fuel + 1, T, track, index =>
    match T.trackAt? track with
    | none => .error .indexError
    | some t =>
      match t.getIndex? index with
      | none => .error .keyError
      | some i =>
        match i.absolute with
        | none => .error .typeError
        | some a =>
          if a ≤ endv then
            let T2 := T.writeIdx track index (fun ix =>
              { ix with path := path, relative := some (a - start),
                        counter := counter })
            match T2.getNextTrackIndex track index with
            | .error .indexError => .ok T2
            | .error e => .error e
            | .ok (t2, i2) => setFileLoop path start endv counter fuel T2 t2 i2
          else .ok T

/-- `Table.setFile`: assign `path` as the backing file from
`(track, index)` on, for `length` frames (the starting index must have a
resolved absolute offset — the assert of the source). -/
def setFile (T : Table) (track index : Nat) (path : String) (length : Int)
    (counter : Option Int) : Except PyErr Table :=
  match T.trackAt? track with
  | none => .error .indexError
  | some t =>
    match t.getIndex? index with
    | none => .error .keyError
    | some i =>
      match i.absolute with
      | none => .error .assertionError
      | some start =>
        setFileLoop (some path) start (start + length - 1) counter
          (T.indexCount + 1) T track index

end Table

/-!  SHA-1 and the custom base64 encoding used by the MusicBrainz disc
id.  `hashlib.sha1` and `base64.b64encode` are Python standard library
collaborators of the source; they are embedded in full (FIPS 180 SHA-1
over byte lists, and base64 with the altchars `'._'` that the source
passes). -/

/-- Truncation to 32 bits. -/
def w32 (n : Nat) : Nat := n % 4294967296

/-- 32-bit left rotation (inputs below `2^32`). -/
def rotl (k x : Nat) : Nat := w32 ((x <<< k) ||| (x >>> (32 - k)))

/-- Big-endian 32-bit word from four bytes. -/
def word32 (b0 b1 b2 b3 : Nat) : Nat := ((b0 * 256 + b1) * 256 + b2) * 256 + b3

/-- The sixteen 32-bit big-endian words of a 64-byte chunk. -/
def chunkWords : List Nat → List Nat
  | b0 :: b1 :: b2 :: b3 :: rest => word32 b0 b1 b2 b3 :: chunkWords rest
  | _ => []

/-- Message-schedule extension: prepend `n` further words to the reversed
word list (`rev.head` is the most recent word). -/
def sha1Extend : Nat → List Nat → List Nat
  | 0, rev => rev
  | n + 1, rev =>
    sha1Extend n
      (rotl 1 (rev.getD 2 0 ^^^ rev.getD 7 0 ^^^ rev.getD 13 0 ^^^ rev.getD 15 0) :: rev)

/-- The SHA-1 round function. -/
def sha1F (i b c d : Nat) : Nat :=
  if i < 20 then (b &&& c) ||| ((b ^^^ 4294967295) &&& d)
  else if i < 40 then b ^^^ c ^^^ d
  else if i < 60 then (b &&& c) ||| (b &&& d) ||| (c &&& d)
  else b ^^^ c ^^^ d

/-- The SHA-1 round constants. -/
def sha1K (i : Nat) : Nat :=
  if i < 20 then 0x5A827999
  else if i < 40 then 0x6ED9EBA1
  else if i < 60 then 0x8F1BBCDC
  else 0xCA62C1D6

/-- One SHA-1 round on the five-word state. -/
def sha1Round (st : Nat × Nat × Nat × Nat × Nat) (iw : Nat × Nat) :
    Nat × Nat × Nat × Nat × Nat :=
  (w32 (rotl 5 st.1 + sha1F iw.1 st.2.1 st.2.2.1 st.2.2.2.1 + st.2.2.2.2 +
      sha1K iw.1 + iw.2),
   st.1, rotl 30 st.2.1, st.2.2.1, st.2.2.2.1)

/-- Compression of one 64-byte chunk. -/
def sha1Chunk (h : Nat × Nat × Nat × Nat × Nat) (chunk : List Nat) :
    Nat × Nat × Nat × Nat × Nat :=
  let ws := (sha1Extend 64 (chunkWords chunk).reverse).reverse
  let f := ((List.range 80).zip ws).foldl sha1Round h
  (w32 (h.1 + f.1), w32 (h.2.1 + f.2.1), w32 (h.2.2.1 + f.2.2.1),
   w32 (h.2.2.2.1 + f.2.2.2.1), w32 (h.2.2.2.2 + f.2.2.2.2))

/-- Split into 64-byte chunks (fuel-driven; the byte count dominates the
number of chunks). -/
def chunks64 : Nat → List Nat → List (List Nat)
  | 0, _ => []
  | _, [] => []
  | fuel + 1, bs => bs.take 64 :: chunks64 fuel (bs.drop 64)

/-- 8-byte big-endian rendering of the bit length. -/
def be8 (n : Nat) : List Nat :=
  [(n >>> 56) % 256, (n >>> 48) % 256, (n >>> 40) % 256, (n >>> 32) % 256,
   (n >>> 24) % 256, (n >>> 16) % 256, (n >>> 8) % 256, n % 256]

/-- 4-byte big-endian rendering of a 32-bit word. -/
def be4 (n : Nat) : List Nat :=
  [(n >>> 24) % 256, (n >>> 16) % 256, (n >>> 8) % 256, n % 256]

/-- SHA-1 padding: `0x80`, zeros to 56 mod 64, 8-byte bit length. -/
def sha1Pad (msg : List Nat) : List Nat :=
  msg ++ [128] ++ List.replicate ((64 - ((msg.length + 9) % 64)) % 64) 0 ++
    be8 (msg.length * 8)

/-- The 20 digest bytes of the final state. -/
def sha1Digest (h : Nat × Nat × Nat × Nat × Nat) : List Nat :=
  be4 h.1 ++ be4 h.2.1 ++ be4 h.2.2.1 ++ be4 h.2.2.2.1 ++ be4 h.2.2.2.2

/-- SHA-1 of a byte list. -/
def sha1 (msg : List Nat) : List Nat :=
  sha1Digest ((chunks64 (sha1Pad msg).length (sha1Pad msg)).foldl sha1Chunk
    (0x67452301, 0xEFCDAB89, 0x98BADCFE, 0x10325476, 0xC3D2E1F0))

/-- The base64 table with the altchars `'._'` that the source passes for
`+` and `/`. -/
def b64Chars : List Char :=
  "ABCDEFGHIJKLMNOPQRSTUVWXYZabcdefghijklmnopqrstuvwxyz0123456789._".data

def b64Char (n : Nat) : Char := b64Chars.getD n 'A'

/-- `base64.b64encode` over bytes, producing 4 output characters per
3 input bytes with `=` padding. -/
def b64encode : List Nat → String
  | [] => ""
  | [b1] =>
    String.mk [b64Char (b1 >>> 2), b64Char ((b1 % 4) <<< 4)] ++ "=="
  | [b1, b2] =>
    String.mk [b64Char (b1 >>> 2), b64Char (((b1 % 4) <<< 4) ||| (b2 >>> 4)),
      b64Char ((b2 % 16) <<< 2)] ++ "="
  | b1 :: b2 :: b3 :: rest =>
    String.mk [b64Char (b1 >>> 2), b64Char (((b1 % 4) <<< 4) ||| (b2 >>> 4)),
      b64Char (((b2 % 16) <<< 2) ||| (b3 >>> 6)), b64Char (b3 % 64)] ++
      b64encode rest

/-- The characters of the `[A-Za-z0-9._-]` alphabet of the MusicBrainz
disc id. -/
def mbAlphabetChar (c : Char) : Bool :=
  ('A' ≤ c && c ≤ 'Z') || ('a' ≤ c && c ≤ 'z') || ('0' ≤ c && c ≤ '9') ||
    c = '.' || c = '_' || c = '-'

/-- `"-".join(result.split("="))`: every `=` becomes `-`. -/
def pyReplaceEq (s : String) : String :=
  String.mk (s.data.map (fun c => if c = '=' then '-' else c))

/-- The bytes `sha.update` consumes for an ASCII string. -/
def strBytes (s : String) : List Nat := s.data.map Char.toNat

/-- The text fed to SHA-1 by `getMusicBrainzDiscId`: `"%02X"` of the
first-track and last-track numbers, `"%08X"` of the leadout value, and
99 `"%08X"` offset slots (`values[2 + i]` for `i = 1..99`, missing slots
zero-filled via the caught `IndexError`). -/
def mbSHAInput (values : List Int) : Except PyErr String :=
  match values[0]?, values[1]?, values[2]? with
  | some v0, some v1, some v2 =>
    .ok (pyFormatHexUpper 2 v0 ++ pyFormatHexUpper 2 v1 ++
      pyFormatHexUpper 8 v2 ++
      String.join ((List.range' 1 99).map
        (fun i => pyFormatHexUpper 8 (values.getD (2 + i) 0))))
  | _, _, _ => .error .indexError

namespace Table

/-- `Table.getMusicBrainzDiscId`: returns the cached id when present,
otherwise hashes the value list, encodes the digest (base64 with
altchars, then `=` replaced by `-`), asserts the 20-byte digest and
28-character result lengths, caches and returns the result. -/
def getMusicBrainzDiscId (T : Table) : Except PyErr (String × Table) := do
  match T.mbdiscid with
  | some s => .ok (s, T)
  | none =>
    let values ← T.getMusicBrainzValues
    let input ← mbSHAInput values
    let digest := sha1 (strBytes input)
    if digest.length = 20 then
      let result := pyReplaceEq (b64encode digest)
      if result.length = 28 then
        .ok (result, { T with mbdiscid := some result })
      else .error .assertionError
    else .error .assertionError

end Table

/-- The CDDB disc id exactly as the CLAIM words it (to be compared with
the embedded `getCDDBDiscId`): the 8-lowercase-hex-digit rendering of
`((n mod modulus) << 24) | (t << 8) | trackCount` with `n` the sum over
all tracks of the decimal digit sum of `(trackStart + 150) / 75`, and `t`
the difference of the truncated leadout and track-1 start seconds.  The
modulus is a parameter: the claim says 256, the code uses `% 0xff`. -/
def cddbDiscIdClaim (modulus : Nat) (T : Table) : Option String := do
  let L ← T.leadout
  let starts ← T.tracks.mapM (fun tr => (tr.getIndex? 1).bind Index.absolute)
  let s1 ← starts.head?
  let n := (starts.map (fun s => digitSum ((s + 150).toNat / 75))).sum
  let t := L.toNat / 75 - s1.toNat / 75
  let value := ((n % modulus) <<< 24) ||| (t <<< 8) ||| T.tracks.length
  some (zfill 8 (natHex value))

/-- A one-track table whose start offset makes the per-track digit-sum
checksum `n = 261 ≥ 255`, separating `n mod 255` from `n mod 256`:
the track starts at `75 * (10^29 - 1) - 150` frames, so its CDDB seconds
value is the 29-nines number with digit sum 261, and the leadout is one
second later. -/
def tableC1 : Table :=
  { tracks :=
      [ { number := 1,
          indexes := [{ number := 1, absolute := some (75 * (10 ^ 29 - 1) - 150) }] } ],
    leadout := some (75 * (10 ^ 29 - 1) - 150 + 75) }

-- Concrete scenario of claim C3: two audio tracks and a leadout.
/-- Two audio tracks, index 1 at absolute 0 resp. 15000, leadout 30150
(the scenario of the spec's `getTrackLength` test). -/
def tableC3 : Table :=
  { tracks :=
      [ { number := 1, indexes := [{ number := 1, absolute := some 0 }] },
        { number := 2, indexes := [{ number := 1, absolute := some 15000 }] } ],
    leadout := some 30150 }

/-- A one-track, one-session table used to exercise `merge`. -/
def selfC6 : Table :=
  { tracks :=
      [ { number := 1,
          indexes := [{ number := 1, absolute := some 0, counter := some 0 }] } ],
    leadout := some 1000 }

/-- A second session merged onto `selfC6`. -/
def otherC6 : Table :=
  { tracks :=
      [ { number := 1,
          indexes := [{ number := 1, absolute := some 0, counter := some 0 }] } ],
    leadout := some 500 }

/-- The table `selfC6.merge otherC6 2` produces: the copied track is
renumbered 2, placed in session 2, shifted by `1000 + 11400` frames, and
the leadout grows to `1000 + 500 + 11400`. -/
def mergedC6 : Table :=
  { tracks :=
      [ { number := 1,
          indexes := [{ number := 1, absolute := some 0, counter := some 0 }] },
        { number := 2, session := some 2,
          indexes := [{ number := 1, absolute := some 12400, counter := some 0 }] } ],
    leadout := some 12900 }

/-- The key structure of a track: its number and its index numbers (what
the traversal lookups read; the loop writes never change it). -/
def trackShape (tr : Track) : Nat × List Nat := (tr.number, tr.indexes.map Index.number)

/-- Two tables with the same track/key structure. -/
def SameShape (T1 T2 : Table) : Prop :=
  T1.tracks.length = T2.tracks.length ∧
    ∀ k : Nat, (T1.tracks[k]?).map trackShape = (T2.tracks[k]?).map trackShape

/-- Every track's index dictionary has distinct keys (an invariant of a
Python dict). -/
def NodupKeys (T : Table) : Prop :=
  ∀ tr ∈ T.tracks, (tr.indexes.map Index.number).Nodup

/-- An index with the `absolute` field cleared: what the resolution loop
of `absolutize` never changes. -/
def eraseAbs (ix : Index) : Index := { ix with absolute := none }

/-- Strict disc order on `(track number, index number)` pairs with
1-based track numbers: the order in which the traversal visits pairs. -/
def pairLt (p q : Nat × Nat) : Prop :=
  1 ≤ p.1 ∧ (p.1 < q.1 ∨ (p.1 = q.1 ∧ p.2 < q.2))

/-- A two-track table (track 1 with a pre-gap index 0 and an index 1,
track 2 with an index 1) used to exercise `getNextTrackIndex`. -/
def tableC2 : Table :=
  { tracks :=
      [ { number := 1, indexes := [{ number := 0 }, { number := 1 }] },
        { number := 2, indexes := [{ number := 1 }] } ] }

/-- A three-track table (two audio tracks and a trailing data track) used
to exercise the MusicBrainz value list. -/
def tableC5 : Table :=
  { tracks :=
      [ { number := 1, indexes := [{ number := 1, absolute := some 0 }] },
        { number := 2, indexes := [{ number := 1, absolute := some 15000 }] },
        { number := 3, audio := false,
          indexes := [{ number := 1, absolute := some 30000 }] } ],
    leadout := some 40000 }

/-- Tracks are numbered consecutively from 1 (position `k` of the track
list carries number `k + 1`): the addressing invariant of
`self.tracks[number - 1]` that every builder of a `Table` maintains. -/
def Numbered (T : Table) : Prop :=
  ∀ k ∈ List.range T.tracks.length, (T.tracks[k]?).map Track.number = some (k + 1)

/-- Every index's absolute offset is unset or agrees with its relative
offset: the tables on which `absolutize` has nothing to complain about. -/
def Consistent (T : Table) : Prop :=
  ∀ tr ∈ T.tracks, ∀ ix ∈ tr.indexes, ix.absolute = none ∨ ix.absolute = ix.relative

/-!  The cue-sheet serialization (`Table.cue`). -/

/-- `CDTEXT_FIELDS` of the source: the CD-Text keys, in order. -/
def CDTEXT_FIELDS : List String :=
  ["ARRANGER", "COMPOSER", "DISCID", "GENRE", "MESSAGE", "ISRC", "PERFORMER",
   "SIZE_INFO", "SONGWRITER", "TITLE", "TOC_INFO", "TOC_INFO2", "UPC_EAN"]

/-- Python `str.upper` (spelled out on the character list so that the
kernel can evaluate it). -/
def pyUpper (s : String) : String := String.mk (s.data.map Char.toUpper)

/-- Modelled from the spec: `whipper.__version__` is an external constant
naming the generating program's version; its value does not matter to any
property of the serialization shape, only that it is a fixed string. -/
def whipperVersion : String := "1.0"

/-- Modelled from the spec: `common.getRelativePath(path, cuePath)` makes
the target path relative to `cuePath`; this embedding serializes with the
default empty `cuePath`, for which paths are treated as in the current
directory and returned unchanged. -/
def getRelativePath (path : String) : String := path

/-- Modelled from the spec: `common.framesToMSF` renders a frame count as
`mm:ss:ff` with exact integer arithmetic at 75 frames per second and 60
seconds per minute, two digits per field. -/
def framesToMSF (frames : Int) : String :=
  pyFormatDec 2 (frames.fdiv (75 * 60)) ++ ":" ++
    pyFormatDec 2 ((frames.fdiv 75).fmod 60) ++ ":" ++
    pyFormatDec 2 (frames.fmod 75)

/-- The `writeFile` helper of `cue`: a `FILE "<path>" WAVE` line. -/
def writeFileLine (p : String) : String :=
  "FILE \"" ++ getRelativePath p ++ "\" WAVE"

/-- An `INDEX NN mm:ss:ff` line of `cue`. -/
def indexLine (n : Int) (rel : Int) : String :=
  "    INDEX " ++ pyFormatDec 2 n ++ " " ++ framesToMSF rel

/-- The disc-level CD-Text header lines of `cue`: every `CDTEXT_FIELDS`
key present in the disc's cdtext dictionary except `PERFORMER` and
`TITLE`, unquoted. -/
def headerCdtextLines (T : Table) : List String :=
  CDTEXT_FIELDS.filterMap (fun key =>
    if key = "PERFORMER" ∨ key = "TITLE" then none
    else (T.cdtext.lookup key).map (fun v => "    " ++ key ++ " " ++ v))

/-- The per-track CD-Text lines of `cue`: every `CDTEXT_FIELDS` key
present in the track's cdtext dictionary, quoted. -/
def trackCdtextLines (tr : Track) : List String :=
  CDTEXT_FIELDS.filterMap (fun key =>
    (tr.cdtext.lookup key).map (fun v => "    " ++ key ++ " \"" ++ v ++ "\""))

/-- The `while not index.path` walk of `cue` that finds the first
path-bearing index for the leading `FILE` line, carrying
`(track, index, counter)`; `getNextTrackIndex`'s `IndexError` propagates
(the source does not catch it here). -/
def firstFileWalk (T : Table) : Nat → Track → Index → Option Int →
    Except PyErr (Track × Index × Option Int)
  | 0, _, _, _ => .error .outOfFuel
  | fuel + 1, track, index, counter =>
    if pyTruthyStr index.path then .ok (track, index, counter)
    else
      match T.getNextTrackIndex track.number index.number with
      | .error e => .error e
      | .ok (t, i) =>
        match T.trackAt? t with
        | none => .error .indexError
        | some track2 =>
          match track2.getIndex? i with
          | none => .error .keyError
          | some index2 => firstFileWalk T fuel track2 index2 index2.counter

/-- The lines `writeFile` appends for an optional path (one `FILE` line
when the path is truthy). -/
def pathFileLines (path : Option String) : List String :=
  match path with
  | some p => if pyTruthyStr (some p) then [writeFileLine p] else []
  | none => []

/-- The `FILE` line emitted when an index's counter exceeds the running
counter and the index carries a path. -/
def cueFileLines (index : Index) (counter : Option Int) : List String :=
  if pyGtOpt index.counter counter then pathFileLines index.path else []

/-- The `TRACK NN AUDIO` header block of one track: per-track CD-Text,
ISRC if set, and `FLAGS PRE` when `pre_emphasis` is not `None`. -/
def cueTrackHeader (pos : Nat) (tr : Track) : List String :=
  ("  TRACK " ++ pyFormatDec 2 ((pos : Int) + 1) ++ " AUDIO") ::
    (trackCdtextLines tr ++
      (match tr.isrc with | some s => ["    ISRC " ++ s] | none => []) ++
      (if tr.pre_emphasis = none then [] else ["    FLAGS PRE"]))

/-- One iteration of the `for number in indexes` loop of `cue` for track
list position `pos` (Python's `enumerate` index): the emitted lines and
the updated running counter.  `wrote` tells whether the `TRACK` header of
this track was already written (true from the second index on). -/
def cueIndexStep (pos : Nat) (tr : Track) (indexOne : Index) (number : Nat)
    (counter : Option Int) (wrote : Bool) :
    Except PyErr (List String × Option Int) :=
  match tr.getIndex? number with
  | none => .error .keyError
  | some index =>
    let fileLines := cueFileLines index counter
    let counter2 := if pyGtOpt index.counter counter then index.counter else counter
    if wrote then
      if number > 0 then
        match index.relative with
        | none => .error .typeError
        | some rel => .ok (fileLines ++ [indexLine (number : Int) rel], counter2)
      else .ok (fileLines, counter2)
    else
      let trackLines := cueTrackHeader pos tr
      if 0 ∈ tr.dictKeys then
        match tr.getIndex? 0 with
        | none => .error .keyError
        | some index00 =>
          if pos = 0 ∧ pyTruthyStr index00.path = false then
            match indexOne.absolute, index00.absolute with
            | some a1, some a0 =>
              .ok (fileLines ++ trackLines ++
                ["    PREGAP " ++ framesToMSF (a1 - a0)], counter2)
            | _, _ => .error .typeError
          else
            match index00.relative with
            | none => .error .typeError
            | some rel0 =>
              if number > 0 then
                match index.relative with
                | none => .error .typeError
                | some rel =>
                  .ok (fileLines ++ trackLines ++
                    [indexLine 0 rel0, indexLine (number : Int) rel], counter2)
              else
                .ok (fileLines ++ trackLines ++ [indexLine 0 rel0], counter2)
      else
        if number > 0 then
          match index.relative with
          | none => .error .typeError
          | some rel =>
            .ok (fileLines ++ trackLines ++ [indexLine (number : Int) rel],
              counter2)
        else .ok (fileLines ++ trackLines, counter2)

/-- The `for number in indexes` loop of `cue` over the sorted key list of
one track: concatenated lines plus the final counter. -/
def cueTrackFold (pos : Nat) (tr : Track) (indexOne : Index) :
    List Nat → Option Int → Bool → Except PyErr (List String × Option Int)
  | [], counter, _ => .ok ([], counter)
  | number :: rest, counter, wrote =>
    match cueIndexStep pos tr indexOne number counter wrote with
    | .error e => .error e
    | .ok (delta, counter2) =>
      match cueTrackFold pos tr indexOne rest counter2 true with
      | .error e => .error e
      | .ok (more, counter3) => .ok (delta ++ more, counter3)

/-- One track of the `for i, track in enumerate(self.tracks)` loop of
`cue`: data tracks are skipped, audio tracks run the index loop over
their sorted keys with `wroteTrack` false. -/
def cueTrackLines (indexOne : Index) (pt : Nat × Track) (counter : Option Int) :
    Except PyErr (List String × Option Int) :=
  if pt.2.audio then cueTrackFold pt.1 pt.2 indexOne pt.2.dictKeys counter false
  else .ok ([], counter)

/-- The whole per-track section of `cue`, over the enumerated track
list. -/
def cueTracksFold (indexOne : Index) :
    List (Nat × Track) → Option Int → Except PyErr (List String × Option Int)
  | [], counter => .ok ([], counter)
  | pt :: rest, counter =>
    match cueTrackLines indexOne pt counter with
    | .error e => .error e
    | .ok (delta, counter2) =>
      match cueTracksFold indexOne rest counter2 with
      | .error e => .error e
      | .ok (more, counter3) => .ok (delta ++ more, counter3)

/-- Python `enumerate` starting at `n`. -/
def enumFrom : Nat → List α → List (Nat × α)
  | _, [] => []
  | n, a :: as => (n, a) :: enumFrom (n + 1) as

/-- The disc-level header block of `cue`: CD-Text (minus
PERFORMER/TITLE), `REM DISCID`, `REM COMMENT`, optional `CATALOG`, then
PERFORMER/TITLE quoted. -/
def cueHeaderLines (T : Table) (discid : String) : List String :=
  headerCdtextLines T ++
    ("REM DISCID " ++ pyUpper discid) ::
    ("REM COMMENT \"whipper " ++ whipperVersion ++ "\"") ::
    ((match T.catalog with
      | some c => if pyTruthyStr (some c) then ["CATALOG " ++ c] else []
      | none => []) ++
      (["PERFORMER", "TITLE"].filterMap (fun key =>
        (T.cdtext.lookup key).map (fun v => key ++ " \"" ++ v ++ "\""))))

namespace Table

/-- The line sequence of `Table.cue` (with the default `cuePath=''` and
`program='whipper'`): header block, leading `FILE` line found by the
first-file walk, then the per-track sections.  The `assert
self.hasTOC()` is the `assertionError`; the eagerly evaluated
`firstTrack.getIndex(1)` is the `keyError` of a first track without an
index 1. -/
def cueLines (T : Table) : Except PyErr (List String) :=
  if T.hasTOC then
    match T.getCDDBDiscId with
    | .error e => .error e
    | .ok discid =>
      match T.tracks[0]? with
      | none => .error .indexError
      | some firstTrack =>
        match firstTrack.getFirstIndex? with
        | none => .error .indexError
        | some index0 =>
          match firstTrack.getIndex? 1 with
          | none => .error .keyError
          | some indexOne =>
            match firstFileWalk T (T.indexCount + 1) firstTrack index0
                index0.counter with
            | .error e => .error e
            | .ok (_, index, counter) =>
              let fileBlock := pathFileLines index.path
              match cueTracksFold indexOne (enumFrom 0 T.tracks) counter with
              | .error e => .error e
              | .ok (body, _) =>
                .ok (cueHeaderLines T discid ++ fileBlock ++ body)
  else .error .assertionError

/-- `Table.cue`: the lines joined by newlines, with a trailing newline
(the source appends `""` before joining). -/
def cue (T : Table) : Except PyErr String :=
  match T.cueLines with
  | .error e => .error e
  | .ok lines => .ok (String.intercalate "\n" (lines ++ [""]))

end Table

/-- The audio tracks for which `cue` emits a `FLAGS PRE` line: at least
one index (so the `TRACK` block is reached) and a `pre_emphasis` that is
not `None` — the source tests `is not None`, so an explicit `False` also
qualifies. -/
def flagsTrack (tr : Track) : Bool :=
  tr.audio && !tr.indexes.isEmpty && tr.pre_emphasis.isSome

/-- The number of `    FLAGS PRE` lines of a line list. -/
def countFlags : List String → Nat
  | [] => 0
  | l :: rest => (if l = "    FLAGS PRE" then 1 else 0) + countFlags rest

/-!  Concrete tables for the remaining witnesses and counterexamples. -/

/-- A well-formed one-track table on which `absolutize` succeeds. -/
def tableC7 : Table :=
  { tracks := [ { number := 1, indexes :=
      [ { number := 1, relative := some 0, counter := some 0 } ] } ] }

/-- What `absolutize` makes of `tableC7`. -/
def tableC7res : Table :=
  { tracks := [ { number := 1, indexes :=
      [ { number := 1, absolute := some 0, relative := some 0,
          counter := some 0 } ] } ] }

/-- A table whose only index carries an absolute offset that disagrees
with its relative offset. -/
def tableC8 : Table :=
  { tracks := [ { number := 1, indexes :=
      [ { number := 1, absolute := some 5, relative := some 7,
          counter := some 0 } ] } ] }

/-- A complete one-track table whose track has `pre_emphasis := some
false`: the pre-emphasis flag is present but not set. -/
def tableC9 : Table :=
  { tracks := [ { number := 1, pre_emphasis := some false, indexes :=
      [ { number := 1, absolute := some 0, path := some "a.wav",
          relative := some 0, counter := some 0 } ] } ],
    leadout := some 1000 }

/-- A table whose second index lies before the first one on the disc:
`setFile` from index 1 reaches it although it is below the assigned
range. -/
def tableC10 : Table :=
  { tracks := [ { number := 1, indexes :=
      [ { number := 1, absolute := some 100 },
        { number := 2, absolute := some 50 } ] } ] }

/-- What `setFile 1 1 "f.wav" 10 none` makes of `tableC10`: both indexes
get the path, index 2 with the negative relative offset `50 - 100`. -/
def tableC10res : Table :=
  { tracks := [ { number := 1, indexes :=
      [ { number := 1, absolute := some 100, path := some "f.wav",
          relative := some 0, counter := none },
        { number := 2, absolute := some 50, path := some "f.wav",
          relative := some (-50), counter := none } ] } ] }

/-- The cue lines of `tableC9`. -/
def cueC9lines : List String :=
  ["REM DISCID 02000D01", "REM COMMENT \"whipper 1.0\"", "FILE \"a.wav\" WAVE",
   "  TRACK 01 AUDIO", "    FLAGS PRE", "    INDEX 01 00:00:00"]

/-!  Theorems.  First general helper lemmas, then one theorem per claim
(with its counterexample and witness theorems where applicable). -/

/-- `mapM` over `Option` succeeds with a list of the same length that is
pointwise the image of the input. -/
theorem list_mapM_option_spec {α β : Type} (g : α → Option β) :
    ∀ (ts : List α) (ss : List β), ts.mapM g = some ss →
      ss.length = ts.length ∧ ∀ k : Nat, ss[k]? = (ts[k]?).bind g := by
  intro ts
  induction ts with
  | nil =>
    intro ss h
    simp only [List.mapM_nil, pure, Option.some.injEq] at h
    subst h
    simp
  | cons t rest ih =>
    intro ss h
    simp only [List.mapM_cons, bind, Option.bind_eq_some, pure,
      Option.some.injEq] at h
    obtain ⟨a, ha, as, has, rfl⟩ := h
    obtain ⟨hlen, hpt⟩ := ih as has
    refine ⟨by simp [hlen], ?_⟩
    intro k
    match k with
    | 0 => simp [ha]
    | k + 1 => simpa using hpt k

/-- `Int.fdiv` on casts of naturals is the natural division. -/
theorem fdiv_natCast (m n : Nat) :
    ((m : Int)).fdiv (n : Int) = ((m / n : Nat) : Int) := by
  rw [Int.fdiv_eq_ediv _ (by positivity)]
  omega

/-- The fuel-driven `_cddbSum` on a cast natural is the decimal digit
sum. -/
theorem cddbSumAux_natCast :
    ∀ (fuel m : Nat), cddbSumAux fuel (m : Int) = (digitSumAux fuel m : Int) := by
  intro fuel
  induction fuel with
  | zero => intro m; rfl
  | succ f ih =>
    intro m
    simp only [cddbSumAux, digitSumAux]
    by_cases hm : m = 0
    · subst hm; norm_num
    · have h0 : (0 : Int) < (m : Int) := by exact_mod_cast Nat.pos_of_ne_zero hm
      rw [if_pos h0, if_neg hm]
      rw [Int.fmod_eq_emod _ (by norm_num), Int.fdiv_eq_ediv _ (by norm_num)]
      rw [show ((m : Int)) % 10 = ((m % 10 : Nat) : Int) by omega]
      rw [show ((m : Int)) / 10 = ((m / 10 : Nat) : Int) by omega]
      rw [ih]
      push_cast
      ring

theorem cddbSum_natCast (m : Nat) : cddbSum (m : Int) = (digitSum m : Int) := by
  have : ((m : Int)).toNat = m := by omega
  rw [cddbSum, this, digitSum, cddbSumAux_natCast]

/-- Casts of naturals: `toNat` undoes the coercion. -/
theorem int_toNat_natCast (n : Nat) : ((n : Int)).toNat = n := by omega

/-- `Int.fmod` on casts of naturals is the natural remainder. -/
theorem fmod_natCast (m n : Nat) :
    ((m : Int)).fmod (n : Int) = ((m % n : Nat) : Int) := by
  rw [Int.fmod_eq_emod _ (by positivity)]
  omega

/-- Summing the casts of mapped naturals over a list of ints. -/
theorem cast_sum_map (l : List Int) (f : Int → Nat) :
    (l.map (fun s => ((f s : Nat) : Int))).sum = (((l.map f).sum : Nat) : Int) := by
  induction l with
  | nil => simp
  | cons x xs ih =>
    simp only [List.map_cons, List.sum_cons, ih]
    push_cast
    ring

/-- `pyShl` on a cast natural is the natural shift. -/
theorem pyShl_natCast (m k : Nat) : pyShl (m : Int) k = ((m <<< k : Nat) : Int) := by
  simp only [pyShl, Nat.shiftLeft_eq]
  push_cast
  ring

/-- `pyOr` on cast naturals is the natural bitwise or. -/
theorem pyOr_natCast (m n : Nat) : pyOr (m : Int) (n : Int) = ((m ||| n : Nat) : Int) := rfl

/-- The checksum fold of `getCDDBValues`, run over tracks whose starts
resolve to the nonnegative values `ss`. -/
theorem cddb_fold_spec (T : Table) :
    ∀ (ts : List Track) (ss : List Int) (n0 : Int) (os : List Int),
      (∀ tr ∈ ts, T.getTrackStart tr.number =
          .ok ((tr.getIndex? 1).bind Index.absolute)) →
      ts.mapM (fun tr => (tr.getIndex? 1).bind Index.absolute) = some ss →
      (∀ a ∈ ss, 0 ≤ a) →
      ts.foldlM (T.cddbTrackStep) (n0, os) =
        .ok (n0 + ((ss.map (fun s => (digitSum ((s.toNat + 150) / 75) : Int))).sum),
             os ++ ss.map (· + 150)) := by
  intro ts
  induction ts with
  | nil =>
    intro ss n0 os _ hm _
    simp only [List.mapM_nil, pure, Option.some.injEq] at hm
    subst hm
    simp only [List.foldlM_nil, List.map_nil, List.sum_nil, add_zero,
      List.append_nil]
    rfl
  | cons t rest ih =>
    intro ss n0 os hstart hm hpos
    simp only [List.mapM_cons, bind, Option.bind_eq_some, pure,
      Option.some.injEq] at hm
    obtain ⟨a, ha, as, has, rfl⟩ := hm
    obtain ⟨ix, hix, hixa⟩ := ha
    have hga : (t.getIndex? 1).bind Index.absolute = some a := by
      rw [hix, Option.some_bind, hixa]
    have ha0 : 0 ≤ a := hpos a (by simp)
    have hcast : a + 2 * FRAMES_PER_SECOND = ((a.toNat + 150 : Nat) : Int) := by
      simp only [FRAMES_PER_SECOND]
      omega
    have hstep : T.cddbTrackStep (n0, os) t =
        .ok (n0 + (digitSum ((a.toNat + 150) / 75) : Int), os ++ [a + 150]) := by
      simp only [Table.cddbTrackStep, hstart t (by simp), hga, bind, Except.bind]
      rw [hcast, show FRAMES_PER_SECOND = ((75 : Nat) : Int) from rfl,
        fdiv_natCast, cddbSum_natCast]
      have h2 : ((a.toNat + 150 : Nat) : Int) = a + 150 := by omega
      rw [h2]
    rw [List.foldlM_cons, hstep]
    show rest.foldlM (T.cddbTrackStep) _ = _
    rw [ih as _ _ (fun tr htr => hstart tr (by simp [htr])) has
      (fun b hb => hpos b (by simp [hb]))]
    simp [add_assoc]

/-- C1 (amended): with every track's index 1 resolved to a nonnegative
offset, consecutive 1-based numbering, and a resolved leadout at or after
track 1's start, the CDDB disc id is the 8-lowercase-hex rendering of
`((n mod 255) << 24) | (t << 8) | trackCount` — the code reduces the
checksum modulo `0xff = 255`, not the claimed 256. -/
theorem C1_amended (T : Table) (L s1 : Int) (starts : List Int)
    (hnum : ∀ (k : Nat) (tr : Track), T.tracks[k]? = some tr → tr.number = k + 1)
    (hL : T.leadout = some L) (hL0 : 0 ≤ L)
    (hstarts : T.tracks.mapM (fun tr => (tr.getIndex? 1).bind Index.absolute)
      = some starts)
    (hpos : ∀ a ∈ starts, 0 ≤ a)
    (hs1 : starts.head? = some s1) (hs1L : s1 ≤ L) :
    ∃ s, T.getCDDBDiscId = .ok s ∧ cddbDiscIdClaim 255 T = some s := by
  obtain ⟨hlen, hpt⟩ := list_mapM_option_spec _ T.tracks starts hstarts
  have hs1' : starts[0]? = some s1 := by
    cases starts with
    | nil => simp at hs1
    | cons x xs => simpa using hs1
  have hlen0 : 0 < starts.length := by
    cases starts with
    | nil => simp at hs1
    | cons x xs => simp
  have htlen0 : 0 < T.tracks.length := hlen ▸ hlen0
  -- every track's getTrackStart resolves to its own index-1 absolute
  have hstart : ∀ tr ∈ T.tracks, T.getTrackStart tr.number =
      .ok ((tr.getIndex? 1).bind Index.absolute) := by
    intro tr htr
    obtain ⟨k, hk⟩ := List.getElem?_of_mem htr
    obtain ⟨hklt, hke⟩ := (List.getElem?_eq_some).1 hk
    have hnumk := hnum k tr hk
    have hka : starts[k]? = (tr.getIndex? 1).bind Index.absolute := by
      rw [hpt k, hk, Option.some_bind]
    obtain ⟨a, hak⟩ : ∃ a, starts[k]? = some a :=
      ⟨starts[k], (List.getElem?_eq_some).2 ⟨by omega, rfl⟩⟩
    have hga : (tr.getIndex? 1).bind Index.absolute = some a := by
      rw [← hka, hak]
    obtain ⟨ix, hix, hixa⟩ := Option.bind_eq_some.1 hga
    rw [Table.getTrackStart, hnumk]
    have htra : T.trackAt? (k + 1) = some tr := by
      simpa [Table.trackAt?] using hk
    rw [htra]
    simp only [hix, Option.some_bind]
  -- the fold
  have hfold := cddb_fold_spec T T.tracks starts 0 [] hstart hstarts hpos
  -- the last track
  obtain ⟨lastTr, hlast⟩ : ∃ tr, T.tracks.getLast? = some tr := by
    rw [List.getLast?_eq_getElem?]
    exact ⟨T.tracks[T.tracks.length - 1],
      (List.getElem?_eq_some).2 ⟨by omega, rfl⟩⟩
  have hlastnum : lastTr.number = T.tracks.length := by
    rw [List.getLast?_eq_getElem?] at hlast
    have := hnum _ _ hlast
    omega
  have hEnd : T.getTrackEnd lastTr.number = .ok (L - 1) := by
    rw [Table.getTrackEnd, hL, hlastnum]
    simp
  -- track 1's start
  obtain ⟨tr0, htr0⟩ : ∃ tr, T.tracks[0]? = some tr :=
    ⟨T.tracks[0], (List.getElem?_eq_some).2 ⟨htlen0, rfl⟩⟩
  have hstart1 : T.getTrackStart 1 = .ok (some s1) := by
    obtain ⟨hklt0, hke0⟩ := (List.getElem?_eq_some).1 htr0
    have hmem0 : tr0 ∈ T.tracks := hke0 ▸ List.getElem_mem hklt0
    have hst := hstart tr0 hmem0
    rw [hnum 0 tr0 htr0] at hst
    have hga : (tr0.getIndex? 1).bind Index.absolute = some s1 := by
      rw [← hs1', hpt 0, htr0, Option.some_bind]
    rw [show (0 : Nat) + 1 = 1 from rfl] at hst
    rw [hst, hga]
  have hs10 : 0 ≤ s1 := by
    obtain ⟨h0, he⟩ := (List.getElem?_eq_some).1 hs1'
    exact he ▸ hpos _ (List.getElem_mem h0)
  refine ⟨zfill 8 (natHex
      ((((starts.map (fun s => digitSum ((s + 150).toNat / 75))).sum % 255) <<< 24) |||
        ((L.toNat / 75 - s1.toNat / 75) <<< 8) ||| T.tracks.length)), ?_, ?_⟩
  · rw [Table.getCDDBDiscId, Table.getCDDBValues]
    simp only [bind, Except.bind, hfold]
    rw [hlast]
    simp only [hEnd, hstart1, Except.bind]
    rw [zero_add, cast_sum_map starts (fun s => digitSum ((s.toNat + 150) / 75))]
    rw [show (starts.map (fun s => digitSum ((s.toNat + 150) / 75))) =
        starts.map (fun s => digitSum ((s + 150).toNat / 75)) from by
      apply List.map_congr_left
      intro a ha
      have h0a : 0 ≤ a := hpos a ha
      congr 1
      omega]
    rw [show (255 : Int) = ((255 : Nat) : Int) from rfl, fmod_natCast]
    rw [show L - 1 + 1 = ((L.toNat : Nat) : Int) from by omega]
    rw [show s1 = ((s1.toNat : Nat) : Int) from by omega]
    rw [show FRAMES_PER_SECOND = ((75 : Nat) : Int) from rfl]
    rw [fdiv_natCast, fdiv_natCast]
    rw [show ((L.toNat / 75 : Nat) : Int) - ((s1.toNat / 75 : Nat) : Int) =
        ((L.toNat / 75 - s1.toNat / 75 : Nat) : Int) from by
      have hdivle : s1.toNat / 75 ≤ L.toNat / 75 :=
        Nat.div_le_div_right (by omega)
      omega]
    rw [pyShl_natCast, pyShl_natCast, pyOr_natCast, pyOr_natCast]
    simp only [List.head?_cons, pyFormatHex]
    rw [if_neg (by omega)]
    simp only [int_toNat_natCast]
  · rw [cddbDiscIdClaim, hL, hstarts]
    simp only [Option.bind_eq_bind, Option.some_bind, hs1]

/-- C1, counterexample: the code packs `n % 0xff` (mod 255), not the
claimed `n mod 256`.  On `tableC1` (checksum `n = 261`) the code returns
`"06000101"` (261 mod 255 = 6) while the claimed formula renders
`"05000101"` (261 mod 256 = 5). -/
theorem C1_counterexample :
    tableC1.getCDDBDiscId = .ok "06000101" ∧
      cddbDiscIdClaim 256 tableC1 = some "05000101" ∧
      ("06000101" : String) ≠ "05000101" := by
  refine ⟨by rfl, by rfl, by decide⟩

/-- C1, witness for the amended theorem at `tableC1`. -/
theorem C1_amended_witness :
    ∃ s, tableC1.getCDDBDiscId = .ok s ∧ cddbDiscIdClaim 255 tableC1 = some s := by
  refine C1_amended tableC1 (75 * (10 ^ 29 - 1) - 150 + 75) (75 * (10 ^ 29 - 1) - 150)
    [75 * (10 ^ 29 - 1) - 150] ?_ rfl (by decide) rfl ?_ rfl (by decide)
  · intro k tr h
    match k with
    | 0 => simp only [tableC1] at h; simp at h; rw [← h]
    | k + 1 => simp [tableC1] at h
  · intro a ha
    simp at ha
    subst ha
    decide

/-- Filtering through an `if` inside `filterMap`. -/
theorem filterMap_if_filter {α β : Type} (p : α → Bool) (f : α → Option β)
    (l : List α) :
    l.filterMap (fun x => if p x then f x else none) = (l.filter p).filterMap f := by
  induction l with
  | nil => rfl
  | cons x xs ih =>
    simp only [List.filterMap_cons, List.filter_cons]
    by_cases hp : p x
    · rw [if_pos hp, if_pos hp]
      simp only [List.filterMap_cons]
      cases hfx : f x <;> simp [hfx, ih]
    · rw [if_neg hp, if_neg hp]
      exact ih

/-- Reading a list through the 1-based positions `1..length` is the list
itself. -/
theorem filterMap_positions {α β : Type} (g : α → Option β) (ts : List α) :
    (List.range' 1 ts.length).filterMap (fun i => (ts[i - 1]?).bind g) =
      ts.filterMap g := by
  induction ts using List.reverseRecOn with
  | nil => rfl
  | append_singleton l t ih =>
    rw [List.length_append, List.length_cons, List.length_nil, Nat.zero_add,
      List.range'_1_concat, List.filterMap_append, List.filterMap_append]
    congr 1
    · rw [← ih]
      apply List.filterMap_congr
      intro i hi
      obtain ⟨h1, h2⟩ := List.mem_range'_1.1 hi
      have : (l ++ [t])[i - 1]? = l[i - 1]? := by
        rw [List.getElem?_append]
        rw [if_pos (by omega)]
      rw [this]
    · have : (l ++ [t])[1 + l.length - 1]? = some t := by
        rw [show 1 + l.length - 1 = l.length from by omega]
        exact List.getElem?_concat_length l t
      simp only [List.filterMap_cons, List.filterMap_nil, this, Option.some_bind]

/-- The offsets loop of `_getMusicBrainzValues`: a successful fold
collects, over the visited 1-based positions, the 150-compensated
index-1 offsets of the audio tracks. -/
theorem mbOffsets_fold_spec (T : Table) :
    ∀ (ks : List Nat) (acc os : List Int),
      ks.foldlM (mbOffsetStep T) acc = .ok os →
      os = acc ++ ks.filterMap (fun i => (T.trackAt? i).bind
        (fun tr => if tr.audio then
          ((tr.getIndex? 1).bind Index.absolute).map (· + 150) else none)) := by
  intro ks
  induction ks with
  | nil =>
    intro acc os hok
    simp only [List.foldlM_nil, pure, Except.pure, Except.ok.injEq] at hok
    simp [hok]
  | cons k ks ih =>
    intro acc os hok
    rw [List.foldlM_cons] at hok
    cases htr : T.trackAt? k with
    | none =>
      rw [show mbOffsetStep T acc k = .ok acc from by
        simp [mbOffsetStep, htr]] at hok
      simp only [bind, Except.bind] at hok
      rw [ih acc os hok]
      simp [htr]
    | some tr =>
      cases haud : tr.audio with
      | false =>
        rw [show mbOffsetStep T acc k = .ok acc from by
          simp [mbOffsetStep, htr, haud]] at hok
        simp only [bind, Except.bind] at hok
        rw [ih acc os hok]
        simp [htr, haud]
      | true =>
        cases hix : tr.getIndex? 1 with
        | none =>
          rw [show mbOffsetStep T acc k = .error .keyError from by
            simp [mbOffsetStep, htr, haud, hix]] at hok
          simp [bind, Except.bind] at hok
        | some ix =>
          cases habs : ix.absolute with
          | none =>
            rw [show mbOffsetStep T acc k = .error .typeError from by
              simp [mbOffsetStep, htr, haud, hix, habs]] at hok
            simp [bind, Except.bind] at hok
          | some a =>
            rw [show mbOffsetStep T acc k = .ok (acc ++ [a + 150]) from by
              simp [mbOffsetStep, htr, haud, hix, habs]] at hok
            simp only [bind, Except.bind] at hok
            rw [ih _ os hok]
            simp [htr, haud, hix, habs]

/-- `listIndex` finds the element at the position it returns. -/
theorem listIndex_getElem {α : Type} [DecidableEq α] :
    ∀ (l : List α) (x : α) (pos : Nat), listIndex x l = some pos →
      l[pos]? = some x := by
  intro l
  induction l with
  | nil => intro x pos h; simp [listIndex] at h
  | cons a as ih =>
    intro x pos h
    simp only [listIndex] at h
    by_cases hax : a = x
    · rw [if_pos hax] at h
      simp only [Option.some.injEq] at h
      subst h
      subst hax
      exact List.getElem?_cons_zero
    · rw [if_neg hax] at h
      cases hm : listIndex x as with
      | none => rw [hm] at h; simp at h
      | some q =>
        rw [hm] at h
        simp at h
        subst h
        rw [List.getElem?_cons_succ]
        exact ih x q hm

/-- A present element is found by `listIndex`. -/
theorem listIndex_isSome_of_mem {α : Type} [DecidableEq α] :
    ∀ (l : List α) (x : α), x ∈ l → ∃ pos, listIndex x l = some pos := by
  intro l
  induction l with
  | nil => intro x hx; cases hx
  | cons a as ih =>
    intro x hx
    by_cases hax : a = x
    · exact ⟨0, by simp [listIndex, hax]⟩
    · have hxas : x ∈ as := by
        cases hx with
        | head => exact absurd rfl hax
        | tail _ h => exact h
      obtain ⟨q, hq⟩ := ih x hxas
      exact ⟨q + 1, by simp [listIndex, hax, hq]⟩

/-- The sorted key view of a track's index dictionary. -/
theorem dictKeys_sorted (t : Track) : t.dictKeys.Sorted (· ≤ ·) :=
  List.sorted_insertionSort _ _

/-- With distinct index numbers the key view is strictly sorted. -/
theorem dictKeys_strict (t : Track) (h : (t.indexes.map Index.number).Nodup) :
    t.dictKeys.Sorted (· < ·) := by
  have hnd : t.dictKeys.Nodup := ((List.perm_insertionSort _ _).nodup_iff).2 h
  exact ((dictKeys_sorted t).and hnd).imp
    (fun {a b} h2 => lt_of_le_of_ne h2.1 h2.2)

/-- `listModify` only touches the given position. -/
theorem listModify_getElem? {α : Type} (f : α → α) :
    ∀ (l : List α) (k j : Nat),
      (listModify l k f)[j]? = if j = k then (l[j]?).map f else l[j]? := by
  intro l
  induction l with
  | nil => intro k j; simp [listModify]
  | cons a as ih =>
    intro k j
    match k, j with
    | 0, 0 => simp [listModify]
    | 0, j + 1 => simp [listModify]
    | k + 1, 0 => simp [listModify]
    | k + 1, j + 1 =>
      simp only [listModify, List.getElem?_cons_succ, ih k j]
      by_cases h : j = k
      · rw [if_pos h, if_pos (show j + 1 = k + 1 from by omega)]
      · rw [if_neg h, if_neg (show ¬(j + 1 = k + 1) from by omega)]

theorem listModify_length {α : Type} (f : α → α) :
    ∀ (l : List α) (k : Nat), (listModify l k f).length = l.length := by
  intro l
  induction l with
  | nil => intro k; rfl
  | cons a as ih =>
    intro k
    match k with
    | 0 => simp [listModify]
    | k + 1 => simp [listModify, ih k]

/-- Modifying a position whose value is fixed by `f` does nothing. -/
theorem listModify_eq_self {α : Type} (f : α → α) :
    ∀ (l : List α) (k : Nat), (∀ a, l[k]? = some a → f a = a) →
      listModify l k f = l := by
  intro l
  induction l with
  | nil => intro k _; rfl
  | cons a as ih =>
    intro k hk
    match k with
    | 0 =>
      simp only [listModify]
      rw [hk a (by simp)]
    | k + 1 =>
      simp only [listModify, List.cons.injEq, true_and]
      exact ih k (fun b hb => hk b (by simpa using hb))

/-- Dictionary write at key `i` as seen by a lookup of key `j`. -/
theorem lookupIdx_write (i j : Nat) (f : Index → Index)
    (hf : ∀ ix, (f ix).number = ix.number) :
    ∀ l : List Index,
      lookupIdx j (l.map (fun ix => if ix.number = i then f ix else ix)) =
        if j = i then (lookupIdx i l).map f else lookupIdx j l := by
  intro l
  induction l with
  | nil => by_cases h : j = i <;> simp [lookupIdx, h]
  | cons x xs ih =>
    simp only [List.map_cons]
    by_cases hxi : x.number = i
    · rw [if_pos hxi]
      by_cases hji : j = i
      · subst hji
        rw [lookupIdx, if_pos (by rw [hf, hxi]), if_pos rfl, lookupIdx,
          if_pos hxi, Option.map_some']
      · rw [lookupIdx, if_neg (by rw [hf, hxi]; omega), ih, if_neg hji,
          if_neg hji, lookupIdx, if_neg (by omega)]
    · rw [if_neg hxi]
      by_cases hxj : x.number = j
      · have hji : ¬(j = i) := by omega
        rw [lookupIdx, if_pos hxj, if_neg hji, lookupIdx, if_pos hxj]
      · rw [lookupIdx, if_neg hxj, ih]
        by_cases hji : j = i
        · rw [if_pos hji, if_pos hji, lookupIdx, if_neg (by omega)]
        · rw [if_neg hji, if_neg hji, lookupIdx, if_neg hxj]

/-- Dictionary write through `writeIndex`: lookup of key `j`. -/
theorem getIndex?_writeIndex (tr : Track) (i j : Nat) (f : Index → Index)
    (hf : ∀ ix, (f ix).number = ix.number) :
    (tr.writeIndex i f).getIndex? j =
      if j = i then (tr.getIndex? i).map f else tr.getIndex? j :=
  lookupIdx_write i j f hf tr.indexes

theorem writeIndex_map_number (tr : Track) (i : Nat) (f : Index → Index)
    (hf : ∀ ix, (f ix).number = ix.number) :
    (tr.writeIndex i f).indexes.map Index.number = tr.indexes.map Index.number := by
  rw [Track.writeIndex]
  show List.map _ (List.map _ _) = _
  rw [List.map_map]
  apply List.map_congr_left
  intro ix _
  by_cases h : ix.number = i <;> simp [h, hf]

theorem writeIndex_shape (tr : Track) (i : Nat) (f : Index → Index)
    (hf : ∀ ix, (f ix).number = ix.number) :
    trackShape (tr.writeIndex i f) = trackShape tr := by
  rw [trackShape, trackShape, writeIndex_map_number tr i f hf]
  rfl

theorem writeIndex_dictKeys (tr : Track) (i : Nat) (f : Index → Index)
    (hf : ∀ ix, (f ix).number = ix.number) :
    (tr.writeIndex i f).dictKeys = tr.dictKeys := by
  rw [Track.dictKeys, Track.dictKeys, writeIndex_map_number tr i f hf]

/-- The table-level write touches exactly the addressed cell. -/
theorem idxAt?_writeIdx (T : Table) (t i : Nat) (f : Index → Index)
    (hf : ∀ ix, (f ix).number = ix.number) (s j : Nat) :
    (T.writeIdx t i f).idxAt? s j =
      if s - 1 = t - 1 ∧ j = i then (T.idxAt? s j).map f else T.idxAt? s j := by
  rw [Table.idxAt?, Table.idxAt?, Table.trackAt?, Table.trackAt?, Table.writeIdx]
  show (listModify T.tracks (t - 1) _)[s - 1]?.bind _ = _
  rw [listModify_getElem? _ T.tracks (t - 1) (s - 1)]
  by_cases hst : s - 1 = t - 1
  · rw [if_pos hst]
    cases htr : T.tracks[s - 1]? with
    | none => by_cases hj : j = i <;> simp [hj]
    | some tr =>
      show (tr.writeIndex i f).getIndex? j = _
      rw [getIndex?_writeIndex tr i j f hf]
      by_cases hj : j = i
      · rw [if_pos hj, if_pos ⟨hst, hj⟩, hj]
        rfl
      · rw [if_neg hj, if_neg (by tauto)]
        rfl
  · rw [if_neg hst, if_neg (by tauto)]

theorem writeIdx_shape (T : Table) (t i : Nat) (f : Index → Index)
    (hf : ∀ ix, (f ix).number = ix.number) :
    SameShape (T.writeIdx t i f) T := by
  constructor
  · show (listModify _ _ _).length = _
    exact listModify_length _ _ _
  · intro k
    show (listModify T.tracks (t - 1) _)[k]?.map trackShape = _
    rw [listModify_getElem?]
    by_cases hk : k = t - 1
    · rw [if_pos hk]
      cases htr : T.tracks[k]? with
      | none => rfl
      | some tr =>
        show some (trackShape (tr.writeIndex i f)) = some (trackShape tr)
        rw [writeIndex_shape tr i f hf]
    · rw [if_neg hk]

theorem SameShape.refl (T : Table) : SameShape T T := ⟨rfl, fun _ => rfl⟩

theorem SameShape.trans {T1 T2 T3 : Table} (h1 : SameShape T1 T2)
    (h2 : SameShape T2 T3) : SameShape T1 T3 :=
  ⟨h1.1.trans h2.1, fun k => (h1.2 k).trans (h2.2 k)⟩

theorem get_cast_of_eq {α : Type} {l l2 : List α} (h : l = l2) (n : Nat)
    (h1 : n < l.length) (h2 : n < l2.length) : l.get ⟨n, h1⟩ = l2.get ⟨n, h2⟩ := by
  subst h
  rfl

theorem NodupKeys_of_shape {T1 T2 : Table} (h : SameShape T1 T2)
    (h2 : NodupKeys T2) : NodupKeys T1 := by
  intro tr htr
  obtain ⟨k, hk⟩ := List.getElem?_of_mem htr
  have := h.2 k
  rw [hk] at this
  cases hk2 : T2.tracks[k]? with
  | none => rw [hk2] at this; simp at this
  | some tr2 =>
    rw [hk2] at this
    simp only [Option.map_some', Option.some.injEq, trackShape,
      Prod.mk.injEq] at this
    rw [this.2]
    exact h2 tr2 (List.getElem?_mem hk2)

/-- `getNextTrackIndex` only reads the shape of the table. -/
theorem getNext_shape {T1 T2 : Table} (h : SameShape T1 T2) (a b : Nat) :
    T1.getNextTrackIndex a b = T2.getNextTrackIndex a b := by
  have hsh := h.2 (a - 1)
  cases h1 : T1.tracks[a - 1]? with
  | none =>
    rw [h1] at hsh
    cases h2 : T2.tracks[a - 1]? with
    | none => simp only [Table.getNextTrackIndex, Table.trackAt?, h1, h2]
    | some tr2 => rw [h2] at hsh; simp at hsh
  | some tr1 =>
    rw [h1] at hsh
    cases h2 : T2.tracks[a - 1]? with
    | none => rw [h2] at hsh; simp at hsh
    | some tr2 =>
      rw [h2] at hsh
      simp only [Option.map_some', Option.some.injEq, trackShape,
        Prod.mk.injEq] at hsh
      have hkeys : tr1.dictKeys = tr2.dictKeys := by
        rw [Track.dictKeys, Track.dictKeys, hsh.2]
      simp only [Table.getNextTrackIndex, Table.trackAt?, h1, h2, hkeys]
      cases hli : listIndex b tr2.dictKeys with
      | none => simp
      | some pos =>
        simp only
        by_cases hlt : pos + 1 < tr2.dictKeys.length
        · rw [dif_pos hlt, dif_pos hlt]
          exact congrArg (fun k => (Except.ok (a, k) : Except PyErr (Nat × Nat)))
            (get_cast_of_eq hkeys (pos + 1) (by rw [hkeys]; exact hlt) hlt)
        · rw [dif_neg hlt, dif_neg hlt, h.1]
          by_cases htr : a + 1 > T2.tracks.length
          · rw [if_pos htr, if_pos htr]
          · rw [if_neg htr, if_neg htr]
            have hsh2 := h.2 (a + 1 - 1)
            cases h3 : T1.tracks[a + 1 - 1]? with
            | none =>
              rw [h3] at hsh2
              cases h4 : T2.tracks[a + 1 - 1]? with
              | none => simp only [Table.trackAt?, h3, h4]
              | some t4 => rw [h4] at hsh2; simp at hsh2
            | some t3 =>
              rw [h3] at hsh2
              cases h4 : T2.tracks[a + 1 - 1]? with
              | none => rw [h4] at hsh2; simp at hsh2
              | some t4 =>
                rw [h4] at hsh2
                simp only [Option.map_some', Option.some.injEq, trackShape,
                  Prod.mk.injEq] at hsh2
                simp only [Table.trackAt?, h3, h4,
                  show t3.dictKeys = t4.dictKeys from by
                    rw [Track.dictKeys, Track.dictKeys, hsh2.2]]

/-- C2: `getNextTrackIndex` follows the total traversal order: within a
track it returns the least strictly greater index number; after the last
index of a track it returns the least index number of the next track;
and on the last index of the last track it raises `IndexError`. -/
theorem C2_getNextTrackIndex (T : Table) (track index : Nat) (tr : Track)
    (htr : T.trackAt? track = some tr)
    (hmem : index ∈ tr.dictKeys)
    (hnd : (tr.indexes.map Index.number).Nodup)
    (hnonempty : ∀ t2 ∈ T.tracks, t2.indexes ≠ []) :
    ((∃ j ∈ tr.dictKeys, index < j) →
      ∃ k, T.getNextTrackIndex track index = .ok (track, k) ∧
        k ∈ tr.dictKeys ∧ index < k ∧ ∀ j ∈ tr.dictKeys, index < j → k ≤ j) ∧
    ((∀ j ∈ tr.dictKeys, j ≤ index) → track < T.tracks.length →
      ∃ t2 k, T.tracks[track]? = some t2 ∧
        T.getNextTrackIndex track index = .ok (track + 1, k) ∧
        k ∈ t2.dictKeys ∧ ∀ j ∈ t2.dictKeys, k ≤ j) ∧
    ((∀ j ∈ tr.dictKeys, j ≤ index) → track = T.tracks.length →
      T.getNextTrackIndex track index = .error .indexError) := by
  obtain ⟨pos, hli⟩ := listIndex_isSome_of_mem _ index hmem
  have hget := listIndex_getElem _ index pos hli
  obtain ⟨hposlt, hpose⟩ := (List.getElem?_eq_some).1 hget
  have hmono := (dictKeys_strict tr hnd).get_strictMono
  refine ⟨?_, ?_, ?_⟩
  · rintro ⟨j, hj, hij⟩
    obtain ⟨⟨q, hq⟩, hqe⟩ := List.mem_iff_get.1 hj
    have hpq : pos < q := by
      have : (⟨pos, hposlt⟩ : Fin tr.dictKeys.length) < ⟨q, hq⟩ := by
        apply hmono.lt_iff_lt.1
        rw [List.get_eq_getElem, List.get_eq_getElem, hpose]
        rw [List.get_eq_getElem] at hqe
        rw [hqe]
        exact hij
      exact this
    have hlt : pos + 1 < tr.dictKeys.length := by omega
    refine ⟨tr.dictKeys.get ⟨pos + 1, hlt⟩, ?_, List.get_mem _ _ _, ?_, ?_⟩
    · simp only [Table.getNextTrackIndex, htr, hli]
      rw [dif_pos hlt]
    · have : (⟨pos, hposlt⟩ : Fin tr.dictKeys.length) < ⟨pos + 1, hlt⟩ := by
        exact Fin.mk_lt_mk.2 (by omega)
      have h2 := hmono this
      rw [List.get_eq_getElem, hpose] at h2
      exact h2
    · intro j2 hj2 hij2
      obtain ⟨⟨q2, hq2⟩, hq2e⟩ := List.mem_iff_get.1 hj2
      have hpq2 : pos < q2 := by
        have : (⟨pos, hposlt⟩ : Fin tr.dictKeys.length) < ⟨q2, hq2⟩ := by
          apply hmono.lt_iff_lt.1
          rw [List.get_eq_getElem, List.get_eq_getElem, hpose]
          rw [List.get_eq_getElem] at hq2e
          rw [hq2e]
          exact hij2
        exact this
      have : tr.dictKeys.get ⟨pos + 1, hlt⟩ ≤ tr.dictKeys.get ⟨q2, hq2⟩ :=
        hmono.monotone (Fin.mk_le_mk.2 (by omega))
      rw [hq2e] at this
      exact this
  · intro hall htlt
    have hnotlt : ¬(pos + 1 < tr.dictKeys.length) := by
      intro hlt
      have hmem2 : tr.dictKeys.get ⟨pos + 1, hlt⟩ ∈ tr.dictKeys := List.get_mem _ _ _
      have hle := hall _ hmem2
      have : (⟨pos, hposlt⟩ : Fin tr.dictKeys.length) < ⟨pos + 1, hlt⟩ :=
        Fin.mk_lt_mk.2 (by omega)
      have h2 := hmono this
      rw [List.get_eq_getElem, hpose] at h2
      omega
    obtain ⟨t2, ht2⟩ : ∃ t2, T.tracks[track]? = some t2 :=
      ⟨T.tracks[track], (List.getElem?_eq_some).2 ⟨htlt, rfl⟩⟩
    obtain ⟨hlt2, he2⟩ := (List.getElem?_eq_some).1 ht2
    have hne2 : t2.indexes ≠ [] := hnonempty t2 (he2 ▸ List.getElem_mem hlt2)
    have hkeysne : t2.dictKeys ≠ [] := by
      intro hnil
      have hlen := (List.perm_insertionSort (· ≤ ·) (t2.indexes.map Index.number)).length_eq
      rw [show List.insertionSort (· ≤ ·) (t2.indexes.map Index.number) = t2.dictKeys
        from rfl, hnil] at hlen
      simp at hlen
      exact hne2 (List.length_eq_zero.1 hlen.symm)
    obtain ⟨k, rest, hcons⟩ : ∃ k rest, t2.dictKeys = k :: rest := by
      cases hc : t2.dictKeys with
      | nil => exact absurd hc hkeysne
      | cons k rest => exact ⟨k, rest, rfl⟩
    refine ⟨t2, k, ht2, ?_, by rw [hcons]; exact List.mem_cons_self k rest, ?_⟩
    · simp only [Table.getNextTrackIndex, htr, hli]
      rw [dif_neg hnotlt, if_neg (by omega)]
      simp only [show T.trackAt? (track + 1) = some t2 from by
        simpa [Table.trackAt?] using ht2, hcons, List.head?_cons]
    · intro j hj
      rw [hcons] at hj
      cases hj with
      | head => exact le_refl k
      | tail _ hjr =>
        have hsorted := dictKeys_sorted t2
        rw [hcons] at hsorted
        exact (List.pairwise_cons.1 hsorted).1 j hjr
  · intro hall htle
    have hnotlt : ¬(pos + 1 < tr.dictKeys.length) := by
      intro hlt
      have hmem2 : tr.dictKeys.get ⟨pos + 1, hlt⟩ ∈ tr.dictKeys := List.get_mem _ _ _
      have hle := hall _ hmem2
      have : (⟨pos, hposlt⟩ : Fin tr.dictKeys.length) < ⟨pos + 1, hlt⟩ :=
        Fin.mk_lt_mk.2 (by omega)
      have h2 := hmono this
      rw [List.get_eq_getElem, hpose] at h2
      omega
    simp only [Table.getNextTrackIndex, htr, hli]
    rw [dif_neg hnotlt, if_pos (by omega)]

/-- C2, witness: on `tableC2` from `(track 1, index 0)` the next pair is
the least greater index of the same track. -/
theorem C2_getNextTrackIndex_witness :
    ∃ k, tableC2.getNextTrackIndex 1 0 = .ok (1, k) ∧
      k ∈ ({ number := 1, indexes := [{ number := 0 }, { number := 1 }] }
        : Track).dictKeys ∧ 0 < k ∧
      ∀ j ∈ ({ number := 1, indexes := [{ number := 0 }, { number := 1 }] }
        : Track).dictKeys, 0 < j → k ≤ j :=
  (C2_getNextTrackIndex tableC2 1 0
    { number := 1, indexes := [{ number := 0 }, { number := 1 }] }
    rfl (by decide) (by decide) (by decide)).1 ⟨1, by decide, by decide⟩

/-- A successful `Except` bind factors. -/
theorem except_bind_ok {ε α β : Type} (e : Except ε α) (f : α → Except ε β) (v : β)
    (h : e.bind f = .ok v) : ∃ a, e = .ok a ∧ f a = .ok v := by
  cases e with
  | error err => simp [Except.bind] at h
  | ok a => exact ⟨a, rfl, by simpa [Except.bind] using h⟩

/-- The SHA-1 digest has 20 bytes. -/
theorem sha1_length (msg : List Nat) : (sha1 msg).length = 20 := by
  simp [sha1, sha1Digest, be4]

/-- The length of the base64 encoding: four characters per three-byte
group, padding included. -/
theorem b64encode_length (l : List Nat) :
    (b64encode l).length = ((l.length + 2) / 3) * 4 := by
  induction l using b64encode.induct with
  | case1 => rfl
  | case2 b1 =>
    rw [b64encode, String.length_append, String.length_mk,
      show ("==" : String).length = 2 from by decide]
    simp
  | case3 b1 b2 =>
    rw [b64encode, String.length_append, String.length_mk,
      show ("=" : String).length = 1 from by decide]
    simp
  | case4 b1 b2 b3 rest ih =>
    rw [b64encode, String.length_append, String.length_mk, ih]
    simp only [List.length_cons, List.length_nil]
    omega

/-- Every character of the base64 encoding is a table character or the
padding `=`. -/
theorem b64encode_chars (l : List Nat) :
    ∀ c ∈ (b64encode l).data, c ∈ b64Chars ∨ c = '=' := by
  have hb : ∀ n, b64Char n ∈ b64Chars := by
    intro n
    rw [b64Char, List.getD_eq_getElem?_getD]
    cases hg : b64Chars[n]? with
    | none => simp [Option.getD]; decide
    | some c =>
      simp only [Option.getD_some]
      exact List.getElem?_mem hg
  induction l using b64encode.induct with
  | case1 => intro c hc; cases hc
  | case2 b1 =>
    intro c hc
    rw [b64encode, String.data_append] at hc
    simp only [List.mem_append] at hc
    cases hc with
    | inl h =>
      simp only [List.mem_cons, List.not_mem_nil, or_false] at h
      rcases h with rfl | rfl
      · exact Or.inl (hb _)
      · exact Or.inl (hb _)
    | inr h =>
      right
      simp only [show ("==" : String).data = ['=', '='] from rfl, List.mem_cons,
        List.not_mem_nil, or_false] at h
      rcases h with rfl | rfl <;> rfl
  | case3 b1 b2 =>
    intro c hc
    rw [b64encode, String.data_append] at hc
    simp only [List.mem_append] at hc
    cases hc with
    | inl h =>
      simp only [List.mem_cons, List.not_mem_nil, or_false] at h
      rcases h with rfl | rfl | rfl <;> exact Or.inl (hb _)
    | inr h =>
      right
      simp only [show ("=" : String).data = ['='] from rfl, List.mem_cons,
        List.not_mem_nil, or_false] at h
      rw [h]
  | case4 b1 b2 b3 rest ih =>
    intro c hc
    rw [b64encode, String.data_append] at hc
    simp only [List.mem_append] at hc
    cases hc with
    | inl h =>
      simp only [List.mem_cons, List.not_mem_nil, or_false] at h
      rcases h with rfl | rfl | rfl | rfl <;> exact Or.inl (hb _)
    | inr h => exact ih c h

/-- Every base64 table character lies in the `[A-Za-z0-9._-]` alphabet. -/
theorem b64Chars_alphabet : ∀ c ∈ b64Chars, mbAlphabetChar c = true := by
  decide

/-- A computable MusicBrainz value list starts with three header
values. -/
theorem mbValues_shape (T : Table) (vs : List Int)
    (hok : T.getMusicBrainzValues = .ok vs) :
    ∃ x y z rest, vs = x :: y :: z :: rest := by
  cases hdt : T.hasDataTracks with
  | true =>
    cases hlast : T.tracks.getLast? with
    | none => simp [Table.getMusicBrainzValues, bind, Except.bind, hdt, hlast] at hok
    | some lastTr =>
    cases haud : lastTr.audio with
    | true =>
      simp [Table.getMusicBrainzValues, bind, Except.bind, hdt, hlast, haud] at hok
    | false =>
    cases hix : lastTr.getIndex? 1 with
    | none =>
      simp [Table.getMusicBrainzValues, bind, Except.bind, hdt, hlast, haud, hix] at hok
    | some ix =>
    cases habs : ix.absolute with
    | none =>
      simp [Table.getMusicBrainzValues, bind, Except.bind, hdt, hlast, haud, hix,
        habs] at hok
    | some a =>
    cases hfold : (List.range' 1 99).foldlM (mbOffsetStep T) [] with
    | error e =>
      simp [Table.getMusicBrainzValues, bind, Except.bind, hdt, hlast, haud, hix,
        habs, hfold] at hok
    | ok os =>
    simp only [Table.getMusicBrainzValues, bind, Except.bind, hdt, hlast, haud, hix,
      habs, hfold, if_true, Bool.false_eq_true, if_false, Except.ok.injEq] at hok
    exact ⟨_, _, _, _, hok.symm⟩
  | false =>
    cases hlo : T.leadout with
    | none => simp [Table.getMusicBrainzValues, bind, Except.bind, hdt, hlo] at hok
    | some L =>
    cases hfold : (List.range' 1 99).foldlM (mbOffsetStep T) [] with
    | error e =>
      simp [Table.getMusicBrainzValues, bind, Except.bind, hdt, hlo, hfold] at hok
    | ok os =>
    simp only [Table.getMusicBrainzValues, bind, Except.bind, hdt, hlo, hfold,
      Bool.false_eq_true, if_false, Except.ok.injEq] at hok
    exact ⟨_, _, _, _, hok.symm⟩

/-- C4: on a fresh table with a computable value list,
`getMusicBrainzDiscId` returns a 28-character string over
`[A-Za-z0-9._-]`, caches it, and a second call on the updated table
returns the identical string. -/
theorem C4_mbDiscId (T : Table) (vs : List Int)
    (hcache : T.mbdiscid = none)
    (hvs : T.getMusicBrainzValues = .ok vs) :
    ∃ s T2, T.getMusicBrainzDiscId = .ok (s, T2) ∧ s.length = 28 ∧
      (∀ c ∈ s.data, mbAlphabetChar c = true) ∧
      T2.getMusicBrainzDiscId = .ok (s, T2) := by
  obtain ⟨x, y, z, rest, hshape⟩ := mbValues_shape T vs hvs
  obtain ⟨input, hinput⟩ : ∃ input, mbSHAInput vs = .ok input := by
    subst hshape
    refine ⟨pyFormatHexUpper 2 x ++ pyFormatHexUpper 2 y ++ pyFormatHexUpper 8 z ++
      String.join ((List.range' 1 99).map
        (fun i => pyFormatHexUpper 8 ((x :: y :: z :: rest).getD (2 + i) 0))), ?_⟩
    simp only [mbSHAInput, List.getElem?_cons_zero, List.getElem?_cons_succ]
  have hdl : (sha1 (strBytes input)).length = 20 := sha1_length _
  have hrl : (pyReplaceEq (b64encode (sha1 (strBytes input)))).length = 28 := by
    rw [pyReplaceEq, String.length_mk, List.length_map,
      show (b64encode (sha1 (strBytes input))).data.length =
        (b64encode (sha1 (strBytes input))).length from
        String.length_data _, b64encode_length, hdl]
  refine ⟨pyReplaceEq (b64encode (sha1 (strBytes input))),
    { T with mbdiscid := some (pyReplaceEq (b64encode (sha1 (strBytes input)))) },
    ?_, hrl, ?_, ?_⟩
  · rw [Table.getMusicBrainzDiscId]
    simp only [hcache, bind, Except.bind, hvs, hinput]
    rw [if_pos hdl, if_pos hrl]
  · intro c hc
    simp only [pyReplaceEq, String.mk, List.mem_map] at hc
    obtain ⟨c0, hc0, hcc⟩ := hc
    by_cases he : c0 = '='
    · rw [he] at hcc
      simp only [if_pos rfl] at hcc
      rw [← hcc]
      rfl
    · rw [if_neg he] at hcc
      subst hcc
      cases b64encode_chars _ c0 hc0 with
      | inl h => exact b64Chars_alphabet c0 h
      | inr h => exact absurd h he
  · rw [Table.getMusicBrainzDiscId]

/-- C4, witness: the disc id of `tableC5` is computed, 28 characters
long, alphabet-clean, cached and reproduced. -/
theorem C4_mbDiscId_witness :
    ∃ s T2, tableC5.getMusicBrainzDiscId = .ok (s, T2) ∧ s.length = 28 ∧
      (∀ c ∈ s.data, mbAlphabetChar c = true) ∧
      T2.getMusicBrainzDiscId = .ok (s, T2) :=
  C4_mbDiscId tableC5 [1, 2, 18750, 150, 15150] rfl (by rfl)

/-- C5: in a computable MusicBrainz value list of a table of at most 99
tracks, position 2 holds `150 +` the effective leadout (the true leadout,
or for a disc with a trailing data track that track's index-1 offset
minus `11400`), and the values after it are the 150-compensated index-1
offsets of the audio tracks in track order. -/
theorem C5_mbValues (T : Table) (vs : List Int)
    (hok : T.getMusicBrainzValues = .ok vs)
    (hlen99 : T.tracks.length ≤ 99) :
    ((T.hasDataTracks = true →
        ∃ lastTr ix a, T.tracks.getLast? = some lastTr ∧ lastTr.audio = false ∧
          lastTr.getIndex? 1 = some ix ∧ ix.absolute = some a ∧
          vs[2]? = some (150 + (a - 11400))) ∧
      (T.hasDataTracks = false →
        ∃ L, T.leadout = some L ∧ vs[2]? = some (150 + L))) ∧
    vs.drop 3 = (T.tracks.filter (fun tr => tr.audio)).filterMap
      (fun tr => ((tr.getIndex? 1).bind Index.absolute).map (· + 150)) := by
  have hos : ∀ os : List Int,
      (List.range' 1 99).foldlM (mbOffsetStep T) [] = .ok os →
      os = (T.tracks.filter (fun tr => tr.audio)).filterMap
        (fun tr => ((tr.getIndex? 1).bind Index.absolute).map (· + 150)) := by
    intro os hfold
    have h1 := mbOffsets_fold_spec T _ [] os hfold
    rw [List.nil_append] at h1
    have hsplit : List.range' 1 99 =
        List.range' 1 T.tracks.length ++
          List.range' (1 + T.tracks.length) (99 - T.tracks.length) := by
      have h := List.range'_append 1 T.tracks.length (99 - T.tracks.length) 1
      rw [one_mul] at h
      rw [show 99 - T.tracks.length + T.tracks.length = 99 from by omega] at h
      exact h.symm
    rw [hsplit, List.filterMap_append] at h1
    have htail : (List.range' (1 + T.tracks.length) (99 - T.tracks.length)).filterMap
        (fun i => (T.trackAt? i).bind
          (fun tr => if tr.audio then
            ((tr.getIndex? 1).bind Index.absolute).map (· + 150) else none)) = [] := by
      rw [List.filterMap_eq_nil_iff]
      intro i hi
      obtain ⟨hi1, hi2⟩ := List.mem_range'_1.1 hi
      rw [show T.trackAt? i = none from by
        rw [Table.trackAt?]
        exact List.getElem?_eq_none (by omega)]
      rfl
    rw [htail, List.append_nil] at h1
    rw [show (fun i => (T.trackAt? i).bind
        (fun tr => if tr.audio then
          ((tr.getIndex? 1).bind Index.absolute).map (· + 150) else none)) =
      (fun i => (T.tracks[i - 1]?).bind
        (fun tr => if tr.audio then
          ((tr.getIndex? 1).bind Index.absolute).map (· + 150) else none)) from rfl] at h1
    rw [filterMap_positions, filterMap_if_filter] at h1
    exact h1
  cases hdt : T.hasDataTracks with
  | true =>
    cases hlast : T.tracks.getLast? with
    | none => simp [Table.getMusicBrainzValues, bind, Except.bind, hdt, hlast] at hok
    | some lastTr =>
    cases haud : lastTr.audio with
    | true => simp [Table.getMusicBrainzValues, bind, Except.bind, hdt, hlast, haud] at hok
    | false =>
    cases hix : lastTr.getIndex? 1 with
    | none => simp [Table.getMusicBrainzValues, bind, Except.bind, hdt, hlast, haud, hix] at hok
    | some ix =>
    cases habs : ix.absolute with
    | none =>
      simp [Table.getMusicBrainzValues, bind, Except.bind, hdt, hlast, haud, hix, habs] at hok
    | some a =>
    cases hfold : (List.range' 1 99).foldlM (mbOffsetStep T) [] with
    | error e =>
      simp [Table.getMusicBrainzValues, bind, Except.bind, hdt, hlast, haud, hix,
        habs, hfold] at hok
    | ok os =>
    simp only [Table.getMusicBrainzValues, bind, Except.bind, hdt, hlast, haud, hix,
      habs, hfold, if_true, Bool.false_eq_true, if_false, Except.ok.injEq] at hok
    subst hok
    refine ⟨⟨fun _ => ⟨lastTr, ix, a, rfl, haud, hix, habs, ?_⟩, fun h =>
      absurd h (by decide)⟩, ?_⟩
    · simp only [List.getElem?_cons_succ, List.getElem?_cons_zero, Option.some.injEq]
      ring
    · simpa using hos os hfold
  | false =>
    cases hlo : T.leadout with
    | none => simp [Table.getMusicBrainzValues, bind, Except.bind, hdt, hlo] at hok
    | some L =>
    cases hfold : (List.range' 1 99).foldlM (mbOffsetStep T) [] with
    | error e =>
      simp [Table.getMusicBrainzValues, bind, Except.bind, hdt, hlo, hfold] at hok
    | ok os =>
    simp only [Table.getMusicBrainzValues, bind, Except.bind, hdt, hlo, hfold,
      Bool.false_eq_true, if_false, Except.ok.injEq] at hok
    subst hok
    refine ⟨⟨fun h => absurd h (by decide),
      fun _ => ⟨L, rfl, ?_⟩⟩, ?_⟩
    · simp
    · simpa using hos os hfold

/-- C5, witness: the value list of `tableC5` (two audio tracks, one
trailing data track at offset 30000, true leadout 40000): position 2 is
`150 + (30000 - 11400)` and the tail holds the audio offsets. -/
theorem C5_mbValues_witness :
    ((tableC5.hasDataTracks = true →
        ∃ lastTr ix a, tableC5.tracks.getLast? = some lastTr ∧ lastTr.audio = false ∧
          lastTr.getIndex? 1 = some ix ∧ ix.absolute = some a ∧
          ([1, 2, 18750, 150, 15150] : List Int)[2]? = some (150 + (a - 11400))) ∧
      (tableC5.hasDataTracks = false →
        ∃ L, tableC5.leadout = some L ∧
          ([1, 2, 18750, 150, 15150] : List Int)[2]? = some (150 + L))) ∧
    ([1, 2, 18750, 150, 15150] : List Int).drop 3 =
      (tableC5.tracks.filter (fun tr => tr.audio)).filterMap
        (fun tr => ((tr.getIndex? 1).bind Index.absolute).map (· + 150)) :=
  C5_mbValues tableC5 [1, 2, 18750, 150, 15150] (by rfl) (by decide)

/-- C6: whenever `merge` completes on a table with a resolved leadout,
the new leadout is the old one plus `other`'s leadout plus the session
gap, and the `other` table comes out of the call unchanged. -/
theorem C6_merge (self other : Table) (session : Int) (sl : Int)
    (out : Table × Table)
    (hsl : self.leadout = some sl)
    (hok : self.merge other session = .ok out) :
    ∃ ol, other.leadout = some ol ∧
      out.1.leadout = some (sl + ol + self.getSessionGap session) ∧
      out.2 = other := by
  cases hlast : self.tracks.getLast? with
  | none => simp [Table.merge, bind, Except.bind, hlast] at hok
  | some lastTrack =>
  cases hli : lastTrack.getLastIndex? with
  | none => simp [Table.merge, bind, Except.bind, hlast, hli] at hok
  | some lastIndex =>
  cases hmap : exceptMapM
      (mergeTrack self.leadout (self.getSessionGap session) lastIndex.counter
        self.tracks.length session) other.tracks with
  | error e => simp [Table.merge, bind, Except.bind, hlast, hli, hmap] at hok
  | ok newTracks =>
  rw [hsl] at hmap
  cases holo : other.leadout with
  | none => simp [Table.merge, bind, Except.bind, hlast, hli, hsl, hmap, holo] at hok
  | some ol =>
  simp only [Table.merge, bind, Except.bind, hlast, hli, hsl, hmap, holo,
    Except.ok.injEq] at hok
  exact ⟨ol, rfl, by rw [← hok], by rw [← hok]⟩

/-- C6, witness: a concrete successful merge. -/
theorem C6_merge_witness :
    ∃ ol, otherC6.leadout = some ol ∧
      (mergedC6, otherC6).1.leadout = some (1000 + ol + selfC6.getSessionGap 2) ∧
      (mergedC6, otherC6).2 = otherC6 :=
  C6_merge selfC6 otherC6 2 1000 (mergedC6, otherC6) rfl (by rfl)

/-- C3, counterexample: in the spec's two-track scenario the code returns
`getTrackLength(2) = 30149 - 15000 + 1 = 15150`, not the claimed 15151
(while `getTrackLength(1) = 15000` holds). -/
theorem C3_counterexample :
    tableC3.getTrackLength 1 = .ok 15000 ∧
      tableC3.getTrackLength 2 ≠ .ok 15151 := by
  constructor
  · rfl
  · decide

/-- C3 (amended): in the scenario (single session, two audio tracks,
track 1 index 1 at absolute 0, track 2 index 1 at absolute 15000, leadout
30150) `getTrackLength(1) = 15000` and `getTrackLength(2) = 15150`. -/
theorem C3_amended :
    tableC3.getTrackLength 1 = .ok 15000 ∧
      tableC3.getTrackLength 2 = .ok 15150 := by
  constructor <;> rfl

/-!  Dictionary-lookup and traversal-order lemmas for the mutation
loops. -/

/-- A successful dictionary lookup returns a member entry carrying the
looked-up number. -/
theorem lookupIdx_mem : ∀ (l : List Index) (n : Nat) (ix : Index),
    lookupIdx n l = some ix → ix ∈ l ∧ ix.number = n := by
  intro l
  induction l with
  | nil => intro n ix h; simp [lookupIdx] at h
  | cons a as ih =>
    intro n ix h
    rw [lookupIdx] at h
    by_cases ha : a.number = n
    · rw [if_pos ha] at h
      obtain rfl : a = ix := by simpa using h
      exact ⟨List.mem_cons_self a as, ha⟩
    · rw [if_neg ha] at h
      obtain ⟨h1, h2⟩ := ih n ix h
      exact ⟨List.mem_cons_of_mem a h1, h2⟩

/-- A key that occurs among the entry numbers is found by the lookup. -/
theorem lookupIdx_isSome : ∀ (l : List Index) (n : Nat),
    n ∈ l.map Index.number → ∃ ix, lookupIdx n l = some ix := by
  intro l
  induction l with
  | nil => intro n h; simp at h
  | cons a as ih =>
    intro n h
    by_cases ha : a.number = n
    · exact ⟨a, by rw [lookupIdx, if_pos ha]⟩
    · have h2 : n ∈ as.map Index.number := by
        simp only [List.map_cons, List.mem_cons] at h
        rcases h with h1 | h1
        · exact absurd h1.symm ha
        · exact h1
      obtain ⟨ix, hix⟩ := ih n h2
      exact ⟨ix, by rw [lookupIdx, if_neg ha, hix]⟩

/-- Membership in the sorted key view is membership among the entry
numbers. -/
theorem mem_dictKeys (tr : Track) (n : Nat) :
    n ∈ tr.dictKeys ↔ n ∈ tr.indexes.map Index.number :=
  (List.perm_insertionSort _ _).mem_iff

/-- A key with an entry is in the sorted key view. -/
theorem mem_dictKeys_of_getIndex? (tr : Track) (n : Nat) (ix : Index)
    (h : tr.getIndex? n = some ix) : n ∈ tr.dictKeys := by
  obtain ⟨hmem, hnum⟩ := lookupIdx_mem tr.indexes n ix h
  exact (mem_dictKeys tr n).2 (hnum ▸ List.mem_map_of_mem Index.number hmem)

/-- A key in the sorted key view has an entry. -/
theorem getIndex?_isSome_of_mem (tr : Track) (n : Nat)
    (h : n ∈ tr.dictKeys) : ∃ ix, tr.getIndex? n = some ix :=
  lookupIdx_isSome tr.indexes n ((mem_dictKeys tr n).1 h)

/-- With distinct entry numbers, every member entry carrying the
looked-up number is the one the lookup returns. -/
theorem lookupIdx_unique : ∀ (l : List Index),
    (l.map Index.number).Nodup → ∀ (n : Nat) (ix : Index),
      lookupIdx n l = some ix → ∀ z ∈ l, z.number = n → z = ix := by
  intro l
  induction l with
  | nil => intro _ n ix h; simp [lookupIdx] at h
  | cons a as ih =>
    intro hnd n ix h z hz hzn
    simp only [List.map_cons, List.nodup_cons] at hnd
    rw [lookupIdx] at h
    by_cases ha : a.number = n
    · rw [if_pos ha] at h
      obtain rfl : a = ix := by simpa using h
      cases hz with
      | head => rfl
      | tail _ hz2 =>
        have hmem : z.number ∈ as.map Index.number :=
          List.mem_map_of_mem Index.number hz2
        rw [hzn, ← ha] at hmem
        exact absurd hmem hnd.1
    · rw [if_neg ha] at h
      cases hz with
      | head => exact absurd hzn ha
      | tail _ hz2 => exact ih hnd.2 n ix h z hz2 hzn

/-- The track a lookup returns is a member of the track list. -/
theorem trackAt?_mem {T : Table} {t : Nat} {tr : Track}
    (h : T.trackAt? t = some tr) : tr ∈ T.tracks :=
  List.getElem?_mem h

/-- `writeIdx` at the looked-up position, seen by the same lookup. -/
theorem trackAt?_writeIdx_self (T : Table) (t i : Nat) (f : Index → Index)
    (tr : Track) (htr : T.trackAt? t = some tr) :
    (T.writeIdx t i f).trackAt? t = some (tr.writeIndex i f) := by
  show (listModify T.tracks (t - 1) _)[t - 1]? = _
  rw [listModify_getElem?, if_pos rfl]
  rw [Table.trackAt?] at htr
  rw [htr]
  rfl

/-- From a valid position, `getNextTrackIndex` either stops with
`indexError` or moves to another valid position. -/
theorem getNext_valid (T : Table) (a b : Nat) (tr : Track)
    (htr : T.trackAt? a = some tr) (hmem : b ∈ tr.dictKeys) :
    T.getNextTrackIndex a b = .error .indexError ∨
      ∃ t2 i2 tr2, T.getNextTrackIndex a b = .ok (t2, i2) ∧
        T.trackAt? t2 = some tr2 ∧ i2 ∈ tr2.dictKeys := by
  obtain ⟨pos, hli⟩ := listIndex_isSome_of_mem tr.dictKeys b hmem
  by_cases hlt : pos + 1 < tr.dictKeys.length
  · right
    refine ⟨a, tr.dictKeys.get ⟨pos + 1, hlt⟩, tr, ?_, htr,
      List.get_mem tr.dictKeys (pos + 1) hlt⟩
    simp only [Table.getNextTrackIndex, htr, hli]
    rw [dif_pos hlt]
  · simp only [Table.getNextTrackIndex, htr, hli]
    rw [dif_neg hlt]
    by_cases hgt : a + 1 > T.tracks.length
    · left; rw [if_pos hgt]
    · rw [if_neg hgt]
      cases ht2 : T.trackAt? (a + 1) with
      | none => left; rfl
      | some t3 =>
        cases hh : t3.dictKeys.head? with
        | none => left; simp only [hh]
        | some k =>
          right
          refine ⟨a + 1, k, t3, by simp only [hh], ht2, ?_⟩
          cases hks : t3.dictKeys with
          | nil => rw [hks] at hh; simp at hh
          | cons x xs =>
            rw [hks] at hh
            simp only [List.head?_cons, Option.some.injEq] at hh
            rw [← hh]
            exact List.mem_cons_self x xs

/-- With distinct keys a successful `getNextTrackIndex` moves strictly
later in disc order. -/
theorem getNext_lt (T : Table) (a b t2 i2 : Nat) (tr : Track)
    (htr : T.trackAt? a = some tr)
    (hnd : (tr.indexes.map Index.number).Nodup)
    (ha : 1 ≤ a)
    (hok : T.getNextTrackIndex a b = .ok (t2, i2)) :
    pairLt (a, b) (t2, i2) := by
  simp only [Table.getNextTrackIndex, htr] at hok
  cases hli : listIndex b tr.dictKeys with
  | none => simp only [hli] at hok; exact Except.noConfusion hok
  | some pos =>
    simp only [hli] at hok
    have hget := listIndex_getElem tr.dictKeys b pos hli
    obtain ⟨hposlt, hpose⟩ := List.getElem?_eq_some.1 hget
    by_cases hlt : pos + 1 < tr.dictKeys.length
    · rw [dif_pos hlt] at hok
      simp only [Except.ok.injEq, Prod.mk.injEq] at hok
      obtain ⟨h1, h2⟩ := hok
      subst h1
      subst h2
      refine ⟨ha, Or.inr ⟨rfl, ?_⟩⟩
      have hmono := (dictKeys_strict tr hnd).get_strictMono
        (show (⟨pos, hposlt⟩ : Fin _) < ⟨pos + 1, hlt⟩ from
          Fin.mk_lt_mk.2 (Nat.lt_succ_self pos))
      have hb : tr.dictKeys.get ⟨pos, hposlt⟩ = b := by
        rw [List.get_eq_getElem]
        exact hpose
      rw [hb] at hmono
      exact hmono
    · rw [dif_neg hlt] at hok
      by_cases hgt : a + 1 > T.tracks.length
      · rw [if_pos hgt] at hok
        exact Except.noConfusion hok
      · rw [if_neg hgt] at hok
        cases ht2 : T.trackAt? (a + 1) with
        | none => simp only [ht2] at hok; exact Except.noConfusion hok
        | some t3 =>
          simp only [ht2] at hok
          cases hh : t3.dictKeys.head? with
          | none => simp only [hh] at hok; exact Except.noConfusion hok
          | some k =>
            simp only [hh, Except.ok.injEq, Prod.mk.injEq] at hok
            obtain ⟨h1, h2⟩ := hok
            subst h1
            subst h2
            exact ⟨ha, Or.inl (Nat.lt_succ_self a)⟩

/-- The disc order on `(track, index)` pairs is transitive. -/
theorem pairLt_trans {p q r : Nat × Nat} (h1 : pairLt p q)
    (h2 : pairLt q r) : pairLt p r := by
  obtain ⟨h1a, h1b⟩ := h1
  obtain ⟨h2a, h2b⟩ := h2
  refine ⟨h1a, ?_⟩
  rcases h1b with h | ⟨he, hl⟩ <;> rcases h2b with h3 | ⟨he3, hl3⟩ <;> omega

/-- One unfolding of the `absolutize` loop once the lookups and asserts
of the iteration have passed. -/
theorem absLoop_step_eq (T : Table) (t i : Nat) (c : Option Int)
    (fuel : Nat) (tr : Track) (ix : Index)
    (htr : T.trackAt? t = some tr) (hix : tr.getIndex? i = some ix)
    (hnum : tr.number = t) (hixn : ix.number = i) :
    T.absLoop t i c (fuel + 1) =
      (if ix.counter = none then .ok T
       else if ix.counter ≠ c then .ok T
       else if ix.absolute ≠ none ∧ ix.absolute ≠ ix.relative then
         .error .valueError
       else
         match (T.writeIdx t i
             (fun j => { j with absolute := j.relative })).getNextTrackIndex
             t i with
         | .error .indexError =>
           .ok (T.writeIdx t i (fun j => { j with absolute := j.relative }))
         | .error e => .error e
         | .ok (t2, i2) =>
           (T.writeIdx t i
             (fun j => { j with absolute := j.relative })).absLoop t2 i2 c
             fuel) := by
  simp only [Table.absLoop, htr, hix]
  rw [if_neg (not_ne_iff.2 hnum), if_neg (not_ne_iff.2 hixn)]

/-- Inversion of one successful iteration of the `absolutize` loop:
the lookups and asserts passed, and either the counter check broke the
loop, or the cell was rewritten and the traversal stopped or went on. -/
theorem absLoop_ok_inv (T : Table) (t i : Nat) (c : Option Int)
    (fuel : Nat) (T' : Table) (h : T.absLoop t i c (fuel + 1) = .ok T') :
    ∃ tr ix, T.trackAt? t = some tr ∧ tr.getIndex? i = some ix ∧
      tr.number = t ∧ ix.number = i ∧
      (((ix.counter = none ∨ ix.counter ≠ c) ∧ T' = T) ∨
        (ix.counter = c ∧ ix.counter ≠ none ∧
          (ix.absolute = none ∨ ix.absolute = ix.relative) ∧
          (((T.writeIdx t i
              (fun j => { j with absolute := j.relative })).getNextTrackIndex
                t i = .error .indexError ∧
            T' = T.writeIdx t i (fun j => { j with absolute := j.relative })) ∨
           ∃ t2 i2,
            (T.writeIdx t i
              (fun j => { j with absolute := j.relative })).getNextTrackIndex
                t i = .ok (t2, i2) ∧
            (T.writeIdx t i
              (fun j => { j with absolute := j.relative })).absLoop t2 i2 c
                fuel = .ok T'))) := by
  simp only [Table.absLoop] at h
  cases htr : T.trackAt? t with
  | none => simp only [htr] at h; exact Except.noConfusion h
  | some tr =>
    simp only [htr] at h
    cases hix : tr.getIndex? i with
    | none => simp only [hix] at h; exact Except.noConfusion h
    | some ix =>
      simp only [hix] at h
      by_cases hnum : tr.number ≠ t
      · rw [if_pos hnum] at h; exact Except.noConfusion h
      · rw [if_neg hnum] at h
        by_cases hixn : ix.number ≠ i
        · rw [if_pos hixn] at h; exact Except.noConfusion h
        · rw [if_neg hixn] at h
          refine ⟨tr, ix, rfl, hix, not_ne_iff.1 hnum, not_ne_iff.1 hixn, ?_⟩
          by_cases hcn : ix.counter = none
          · rw [if_pos hcn] at h
            exact Or.inl ⟨Or.inl hcn, by simpa using h.symm⟩
          · rw [if_neg hcn] at h
            by_cases hcne : ix.counter ≠ c
            · rw [if_pos hcne] at h
              exact Or.inl ⟨Or.inr hcne, by simpa using h.symm⟩
            · rw [if_neg hcne] at h
              by_cases habs : ix.absolute ≠ none ∧ ix.absolute ≠ ix.relative
              · rw [if_pos habs] at h; exact Except.noConfusion h
              · rw [if_neg habs] at h
                refine Or.inr ⟨not_ne_iff.1 hcne, hcn, ?_, ?_⟩
                · rcases not_and_or.1 habs with h1 | h1
                  · exact Or.inl (not_ne_iff.1 h1)
                  · exact Or.inr (not_ne_iff.1 h1)
                · cases hnext : (T.writeIdx t i
                      (fun j => { j with absolute := j.relative })).getNextTrackIndex
                      t i with
                  | error e =>
                    cases e with
                    | indexError =>
                      simp only [hnext] at h
                      exact Or.inl ⟨rfl, by simpa using h.symm⟩
                    | keyError => simp only [hnext] at h; exact Except.noConfusion h
                    | valueError => simp only [hnext] at h; exact Except.noConfusion h
                    | typeError => simp only [hnext] at h; exact Except.noConfusion h
                    | assertionError =>
                      simp only [hnext] at h; exact Except.noConfusion h
                    | outOfFuel => simp only [hnext] at h; exact Except.noConfusion h
                  | ok pr =>
                    obtain ⟨t2, i2⟩ := pr
                    simp only [hnext] at h
                    exact Or.inr ⟨t2, i2, rfl, h⟩

/-- A successful `absolutize` loop run preserves the track/key shape of
the table. -/
theorem absLoop_shape : ∀ (fuel : Nat) (T : Table) (t i : Nat)
    (c : Option Int) (T' : Table),
    T.absLoop t i c fuel = .ok T' → SameShape T' T := by
  intro fuel
  induction fuel with
  | zero =>
    intro T t i c T' h
    rw [Table.absLoop] at h
    exact Except.noConfusion h
  | succ fuel ih =>
    intro T t i c T' h
    obtain ⟨tr, ix, htr, hix, hnum, hixn, hrest⟩ :=
      absLoop_ok_inv T t i c fuel T' h
    rcases hrest with ⟨_, heq⟩ | ⟨hc, hcn, habs, hnext⟩
    · rw [heq]; exact SameShape.refl T
    · have hw := writeIdx_shape T t i
        (fun j => { j with absolute := j.relative }) (fun j => rfl)
      rcases hnext with ⟨_, heq⟩ | ⟨t2, i2, hok, hrec⟩
      · rw [heq]; exact hw
      · exact (ih _ t2 i2 c T' hrec).trans hw

/-- Reading the consecutive-numbering invariant at one position. -/
theorem Numbered_get {T : Table} (h : Numbered T) {k : Nat} {tr : Track}
    (hk : T.tracks[k]? = some tr) : tr.number = k + 1 := by
  have hlt : k < T.tracks.length := (List.getElem?_eq_some.1 hk).1
  have h2 := h k (List.mem_range.2 hlt)
  rw [hk] at h2
  simpa using h2

/-- Consecutive numbering only depends on the shape. -/
theorem Numbered_of_shape {T1 T2 : Table} (h : SameShape T1 T2)
    (h2 : Numbered T2) : Numbered T1 := by
  intro k hk
  have hs := h.2 k
  have hk2 : k ∈ List.range T2.tracks.length := by
    rw [List.mem_range] at hk ⊢
    rw [← h.1]
    exact hk
  have h3 := h2 k hk2
  cases h1 : T1.tracks[k]? with
  | none =>
    rw [h1] at hs
    cases h4 : T2.tracks[k]? with
    | none => rw [h4] at h3; simp at h3
    | some t4 => rw [h4] at hs; simp at hs
  | some t3 =>
    rw [h1] at hs
    cases h4 : T2.tracks[k]? with
    | none => rw [h4] at hs; simp at hs
    | some t4 =>
      rw [h4] at hs
      rw [h4] at h3
      simp only [Option.map_some', Option.some.injEq, trackShape,
        Prod.mk.injEq] at hs h3 ⊢
      rw [hs.1, h3]

/-- Positive track numbers only depend on the shape. -/
theorem pos_of_shape {T1 T2 : Table} (h : SameShape T1 T2)
    (h2 : ∀ tr ∈ T2.tracks, 1 ≤ tr.number) :
    ∀ tr ∈ T1.tracks, 1 ≤ tr.number := by
  intro tr htr
  obtain ⟨k, hk⟩ := List.getElem?_of_mem htr
  have hs := h.2 k
  rw [hk] at hs
  cases h4 : T2.tracks[k]? with
  | none => rw [h4] at hs; simp at hs
  | some t4 =>
    rw [h4] at hs
    simp only [Option.map_some', Option.some.injEq, trackShape,
      Prod.mk.injEq] at hs
    rw [hs.1]
    exact h2 t4 (List.getElem?_mem h4)

/-- Consecutively numbered tracks have positive numbers. -/
theorem numbered_pos {T : Table} (h : Numbered T) :
    ∀ tr ∈ T.tracks, 1 ≤ tr.number := by
  intro tr htr
  obtain ⟨k, hk⟩ := List.getElem?_of_mem htr
  rw [Numbered_get h hk]
  omega

/-- The total index count only depends on the shape. -/
theorem indexCount_of_shape {T1 T2 : Table} (h : SameShape T1 T2) :
    T1.indexCount = T2.indexCount := by
  rw [Table.indexCount, Table.indexCount]
  congr 1
  apply List.ext_getElem?
  intro n
  rw [List.getElem?_map, List.getElem?_map]
  have hs := h.2 n
  cases h1 : T1.tracks[n]? with
  | none =>
    rw [h1] at hs
    cases h2 : T2.tracks[n]? with
    | none => rfl
    | some tr2 => rw [h2] at hs; simp at hs
  | some tr1 =>
    rw [h1] at hs
    cases h2 : T2.tracks[n]? with
    | none => rw [h2] at hs; simp at hs
    | some tr2 =>
      rw [h2] at hs
      simp only [Option.map_some', Option.some.injEq, trackShape,
        Prod.mk.injEq] at hs
      simp only [Option.map_some', Option.some.injEq]
      have hlen := congrArg List.length hs.2
      simpa using hlen

/-- The `absolute := relative` write keeps the table consistent. -/
theorem consistent_writeIdx (T : Table) (t i : Nat) (hC : Consistent T) :
    Consistent (T.writeIdx t i (fun j => { j with absolute := j.relative })) := by
  intro tr htr ix hix
  obtain ⟨k, hk⟩ := List.getElem?_of_mem htr
  have hk2 : (listModify T.tracks (t - 1)
      (fun tr2 => tr2.writeIndex i (fun j => { j with absolute := j.relative })))[k]?
        = some tr := hk
  rw [listModify_getElem?] at hk2
  by_cases hkt : k = t - 1
  · rw [if_pos hkt] at hk2
    cases h0 : T.tracks[k]? with
    | none => rw [h0] at hk2; simp at hk2
    | some tr0 =>
      rw [h0] at hk2
      simp only [Option.map_some', Option.some.injEq] at hk2
      subst hk2
      have hix2 : ix ∈ tr0.indexes.map (fun z =>
          if z.number = i then { z with absolute := z.relative } else z) := hix
      obtain ⟨z, hz, hgz⟩ := List.mem_map.1 hix2
      by_cases hzn : z.number = i
      · rw [if_pos hzn] at hgz
        rw [← hgz]
        exact Or.inr rfl
      · rw [if_neg hzn] at hgz
        rw [← hgz]
        exact hC tr0 (List.getElem?_mem h0) z hz
  · rw [if_neg hkt] at hk2
    exact hC tr (List.getElem?_mem hk2) ix hix

/-- From a pair that was just looked up, `getNextTrackIndex` never
raises `ValueError`. -/
theorem getNext_no_valueError (T : Table) (t i : Nat) (tr : Track)
    (htr : T.trackAt? t = some tr) (hmem : i ∈ tr.dictKeys) :
    T.getNextTrackIndex t i ≠ .error .valueError := by
  rcases getNext_valid T t i tr htr hmem with hcase | ⟨t2, i2, tr2, hcase, _⟩ <;>
    rw [hcase] <;> simp

/-- The `absolutize` loop never raises `ValueError` on a consistent
table: the rewritten value always agrees with the stored one. -/
theorem absLoop_no_valueError :
    ∀ (fuel : Nat) (T : Table) (t i : Nat) (c : Option Int),
      Consistent T → T.absLoop t i c fuel ≠ .error .valueError := by
  intro fuel
  induction fuel with
  | zero =>
    intro T t i c _ h
    rw [Table.absLoop] at h
    simp at h
  | succ fuel ih =>
    intro T t i c hC h
    cases htr : T.trackAt? t with
    | none => simp only [Table.absLoop, htr] at h; simp at h
    | some tr =>
      cases hix : tr.getIndex? i with
      | none => simp only [Table.absLoop, htr, hix] at h; simp at h
      | some ix =>
        simp only [Table.absLoop, htr, hix] at h
        by_cases h1 : tr.number ≠ t
        · rw [if_pos h1] at h; simp at h
        · rw [if_neg h1] at h
          by_cases h2 : ix.number ≠ i
          · rw [if_pos h2] at h; simp at h
          · rw [if_neg h2] at h
            by_cases h3 : ix.counter = none
            · rw [if_pos h3] at h; exact Except.noConfusion h
            · rw [if_neg h3] at h
              by_cases h4 : ix.counter ≠ c
              · rw [if_pos h4] at h; exact Except.noConfusion h
              · rw [if_neg h4] at h
                by_cases h5 : ix.absolute ≠ none ∧ ix.absolute ≠ ix.relative
                · have hmem := lookupIdx_mem tr.indexes i ix hix
                  rcases hC tr (trackAt?_mem htr) ix hmem.1 with h6 | h6
                  · exact h5.1 h6
                  · exact h5.2 h6
                · rw [if_neg h5] at h
                  have hmem2 : i ∈ (tr.writeIndex i
                      (fun j => { j with absolute := j.relative })).dictKeys := by
                    rw [writeIndex_dictKeys tr i
                      (fun j => { j with absolute := j.relative }) (fun j => rfl)]
                    exact mem_dictKeys_of_getIndex? tr i ix hix
                  have hnv := getNext_no_valueError
                    (T.writeIdx t i (fun j => { j with absolute := j.relative }))
                    t i
                    (tr.writeIndex i (fun j => { j with absolute := j.relative }))
                    (trackAt?_writeIdx_self T t i
                      (fun j => { j with absolute := j.relative }) tr htr) hmem2
                  cases hnext : (T.writeIdx t i
                      (fun j => { j with absolute := j.relative })).getNextTrackIndex
                      t i with
                  | error e =>
                    cases e with
                    | indexError => simp only [hnext] at h; exact Except.noConfusion h
                    | valueError => exact hnv hnext
                    | keyError => simp only [hnext] at h; simp at h
                    | typeError => simp only [hnext] at h; simp at h
                    | assertionError => simp only [hnext] at h; simp at h
                    | outOfFuel => simp only [hnext] at h; simp at h
                  | ok pr =>
                    obtain ⟨t2, i2⟩ := pr
                    simp only [hnext] at h
                    exact ih (T.writeIdx t i
                      (fun j => { j with absolute := j.relative })) t2 i2 c
                      (consistent_writeIdx T t i hC) h

/-- C8: the `absolutize` walk, arriving at an index whose counter still
matches the running counter and whose absolute offset is set and
disagrees with its relative offset, raises `ValueError` (first
conjunct); and on a table where every index's absolute offset is unset
or agrees with its relative offset, `absolutize` never raises
`ValueError` (second conjunct). -/
theorem C8_absolutize_valueError :
    (∀ (T : Table) (t i : Nat) (c : Option Int) (fuel : Nat)
      (tr : Track) (ix : Index),
      T.trackAt? t = some tr → tr.getIndex? i = some ix →
      tr.number = t → ix.number = i →
      ix.counter = c → ix.counter ≠ none →
      ix.absolute ≠ none → ix.absolute ≠ ix.relative →
      T.absLoop t i c (fuel + 1) = .error .valueError) ∧
    (∀ T : Table, Consistent T → T.absolutize ≠ .error .valueError) := by
  constructor
  · intro T t i c fuel tr ix htr hix hnum hixn hc hcn ha1 ha2
    rw [absLoop_step_eq T t i c fuel tr ix htr hix hnum hixn]
    rw [if_neg hcn, if_neg (not_ne_iff.2 hc), if_pos ⟨ha1, ha2⟩]
  · intro T hC h
    rw [Table.absolutize] at h
    cases h0 : T.tracks[0]? with
    | none => simp only [h0] at h; simp at h
    | some tr0 =>
      simp only [h0] at h
      cases h1 : tr0.getFirstIndex? with
      | none => simp only [h1] at h; simp at h
      | some ix0 =>
        simp only [h1] at h
        exact absLoop_no_valueError (T.indexCount + 1) T tr0.number ix0.number
          ix0.counter hC h

/-- Witness for C8: `tableC8`'s only index has counter `some 0`,
absolute `some 5` and relative `some 7`, so the walk raises
`ValueError`; and on the consistent `tableC7` the whole `absolutize`
never does. -/
theorem C8_witness :
    tableC8.absLoop 1 1 (some 0) 1 = .error .valueError ∧
      tableC7.absolutize ≠ .error .valueError :=
  ⟨C8_absolutize_valueError.1 tableC8 1 1 (some 0) 0 _ _ rfl rfl rfl rfl rfl
      (by decide) (by decide) (by decide),
    C8_absolutize_valueError.2 tableC7 (by unfold Consistent; decide)⟩

/-- Cell-level effect of the `setFile` loop: every cell is either left
alone or rewritten from an absolute offset not exceeding the range
end. -/
theorem setFileLoop_cells (p : Option String) (start endv : Int)
    (c : Option Int) :
    ∀ (fuel : Nat) (T : Table) (t i : Nat) (T' : Table),
      Table.setFileLoop p start endv c fuel T t i = .ok T' →
      ∀ s j, T'.idxAt? s j = T.idxAt? s j ∨
        ∃ ix a, T.idxAt? s j = some ix ∧ ix.absolute = some a ∧ a ≤ endv ∧
          T'.idxAt? s j = some { ix with
            path := p, relative := some (a - start), counter := c } := by
  intro fuel
  induction fuel with
  | zero =>
    intro T t i T' h
    rw [Table.setFileLoop] at h
    exact Except.noConfusion h
  | succ fuel ih =>
    intro T t i T' h
    simp only [Table.setFileLoop] at h
    cases htr : T.trackAt? t with
    | none => simp only [htr] at h; exact Except.noConfusion h
    | some tr =>
      simp only [htr] at h
      cases hix : tr.getIndex? i with
      | none => simp only [hix] at h; exact Except.noConfusion h
      | some ix =>
        simp only [hix] at h
        cases habs : ix.absolute with
        | none => simp only [habs] at h; exact Except.noConfusion h
        | some a =>
          simp only [habs] at h
          by_cases hle : a ≤ endv
          · rw [if_pos hle] at h
            have hTsj : ∀ s j, s - 1 = t - 1 → j = i →
                T.idxAt? s j = some ix := by
              intro s j hs hj
              rw [Table.idxAt?, Table.trackAt?, hs, hj]
              rw [show T.tracks[t - 1]? = some tr from htr]
              exact hix
            cases hnext : (T.writeIdx t i (fun ixw =>
                { ixw with
                  path := p, relative := some (a - start),
                  counter := c })).getNextTrackIndex t i with
            | error e =>
              cases e with
              | indexError =>
                simp only [hnext] at h
                obtain heq : _ = T' := by exact (by simpa using h : _)
                intro s j
                rw [← heq]
                rw [idxAt?_writeIdx T t i (fun ixw => { ixw with
                    path := p, relative := some (a - start), counter := c })
                  (fun z => rfl) s j]
                by_cases hcell : s - 1 = t - 1 ∧ j = i
                · rw [if_pos hcell]
                  right
                  refine ⟨ix, a, hTsj s j hcell.1 hcell.2, habs, hle, ?_⟩
                  rw [hTsj s j hcell.1 hcell.2]
                  rfl
                · rw [if_neg hcell]
                  left
                  rfl
              | keyError => simp only [hnext] at h; exact Except.noConfusion h
              | valueError => simp only [hnext] at h; exact Except.noConfusion h
              | typeError => simp only [hnext] at h; exact Except.noConfusion h
              | assertionError =>
                simp only [hnext] at h; exact Except.noConfusion h
              | outOfFuel => simp only [hnext] at h; exact Except.noConfusion h
            | ok pr =>
              obtain ⟨t2, i2⟩ := pr
              simp only [hnext] at h
              intro s j
              rcases ih _ t2 i2 T' h s j with hsame |
                ⟨ix2, a2, hT2, hA2, hle2, hT'⟩
              · rw [hsame, idxAt?_writeIdx T t i (fun ixw => { ixw with
                    path := p, relative := some (a - start), counter := c })
                  (fun z => rfl) s j]
                by_cases hcell : s - 1 = t - 1 ∧ j = i
                · rw [if_pos hcell]
                  right
                  refine ⟨ix, a, hTsj s j hcell.1 hcell.2, habs, hle, ?_⟩
                  rw [hTsj s j hcell.1 hcell.2]
                  rfl
                · rw [if_neg hcell]
                  left
                  rfl
              · rw [idxAt?_writeIdx T t i (fun ixw => { ixw with
                    path := p, relative := some (a - start), counter := c })
                  (fun z => rfl) s j] at hT2
                by_cases hcell : s - 1 = t - 1 ∧ j = i
                · rw [if_pos hcell] at hT2
                  rw [hTsj s j hcell.1 hcell.2] at hT2
                  simp only [Option.map_some', Option.some.injEq] at hT2
                  right
                  refine ⟨ix, a, hTsj s j hcell.1 hcell.2, habs, hle, ?_⟩
                  rw [hT']
                  have ha2 : a2 = a := by
                    rw [← hT2] at hA2
                    simp only at hA2
                    rw [habs] at hA2
                    exact (Option.some.inj hA2).symm
                  rw [← hT2, ha2]
                · rw [if_neg hcell] at hT2
                  right
                  exact ⟨ix2, a2, hT2, hA2, hle2, hT'⟩
          · rw [if_neg hle] at h
            obtain heq : T = T' := by simpa using h
            intro s j
            rw [← heq]
            left
            rfl

/-- C10 (amended): on success, `setFile` starts at an index with a
resolved absolute offset `start` and only ever rewrites cells whose
absolute offset is at most `start + length - 1` (giving them the path,
the relative offset against `start`, and the counter); all other cells —
in particular every index past the range end — keep their previous
path, relative offset and counter.  The source checks no lower bound, so
cells below `start` may also be rewritten. -/
theorem C10_amended (T T' : Table) (track index : Nat) (path : String)
    (length : Int) (counter : Option Int)
    (h : T.setFile track index path length counter = .ok T') :
    ∃ tr0 ix0 start, T.trackAt? track = some tr0 ∧
      tr0.getIndex? index = some ix0 ∧ ix0.absolute = some start ∧
      ∀ s j, T'.idxAt? s j = T.idxAt? s j ∨
        ∃ ix a, T.idxAt? s j = some ix ∧ ix.absolute = some a ∧
          a ≤ start + length - 1 ∧
          T'.idxAt? s j = some { ix with
            path := some path, relative := some (a - start),
            counter := counter } := by
  rw [Table.setFile] at h
  cases htr : T.trackAt? track with
  | none => simp only [htr] at h; exact Except.noConfusion h
  | some tr0 =>
    simp only [htr] at h
    cases hix : tr0.getIndex? index with
    | none => simp only [hix] at h; exact Except.noConfusion h
    | some ix0 =>
      simp only [hix] at h
      cases habs : ix0.absolute with
      | none => simp only [habs] at h; exact Except.noConfusion h
      | some start =>
        simp only [habs] at h
        exact ⟨tr0, ix0, start, rfl, hix, habs,
          setFileLoop_cells (some path) start (start + length - 1) counter
            (T.indexCount + 1) T track index T' h⟩

/-- C10 counterexample: on `tableC10`, `setFile 1 1 "f.wav" 10 none`
assigns the path to index 2, whose absolute offset 50 lies below the
claimed range `[100, 109]` (the source only checks the upper bound). -/
theorem C10_counterexample :
    tableC10.setFile 1 1 "f.wav" 10 none = .ok tableC10res ∧
      tableC10res.idxAt? 1 2 = some { number := 2, absolute := some 50,
                                      path := some "f.wav",
                                      relative := some (-50),
                                      counter := none } ∧
      ((50 : Int) < 100) :=
  ⟨by decide, by decide, by decide⟩

/-- Witness for C10 (amended) at `tableC10`. -/
theorem C10_amended_witness :
    ∃ tr0 ix0 start, tableC10.trackAt? 1 = some tr0 ∧
      tr0.getIndex? 1 = some ix0 ∧ ix0.absolute = some start ∧
      ∀ s j, tableC10res.idxAt? s j = tableC10.idxAt? s j ∨
        ∃ ix a, tableC10.idxAt? s j = some ix ∧ ix.absolute = some a ∧
          a ≤ start + 10 - 1 ∧
          tableC10res.idxAt? s j = some { ix with
            path := some "f.wav", relative := some (a - start),
            counter := none } :=
  C10_amended tableC10 tableC10res 1 1 "f.wav" 10 none (by decide)

/-- The `absolutize` loop changes nothing but absolute offsets. -/
theorem absLoop_absOnly :
    ∀ (fuel : Nat) (T : Table) (t i : Nat) (c : Option Int) (T' : Table),
      T.absLoop t i c fuel = .ok T' →
      ∀ s j, (T'.idxAt? s j).map eraseAbs = (T.idxAt? s j).map eraseAbs := by
  intro fuel
  induction fuel with
  | zero =>
    intro T t i c T' h
    rw [Table.absLoop] at h
    exact Except.noConfusion h
  | succ fuel ih =>
    intro T t i c T' h s j
    obtain ⟨tr, ix, htr, hix, hnum, hixn, hrest⟩ :=
      absLoop_ok_inv T t i c fuel T' h
    have hwrite : ∀ s j,
        ((T.writeIdx t i (fun k => { k with absolute := k.relative })).idxAt?
          s j).map eraseAbs = (T.idxAt? s j).map eraseAbs := by
      intro s j
      rw [idxAt?_writeIdx T t i (fun k => { k with absolute := k.relative })
        (fun z => rfl) s j]
      by_cases hcell : s - 1 = t - 1 ∧ j = i
      · rw [if_pos hcell, Option.map_map]
        rfl
      · rw [if_neg hcell]
    rcases hrest with ⟨_, heq⟩ | ⟨hc, hcn, habs, hnext⟩
    · rw [heq]
    · rcases hnext with ⟨_, heq⟩ | ⟨t2, i2, hok, hrec⟩
      · rw [heq]
        exact hwrite s j
      · rw [ih _ t2 i2 c T' hrec s j]
        exact hwrite s j

/-- Cells strictly before the walk position in disc order are never
touched by the `absolutize` loop. -/
theorem absLoop_preserves_earlier :
    ∀ (fuel : Nat) (T : Table) (t i : Nat) (c : Option Int) (T' : Table),
      NodupKeys T → (∀ tr ∈ T.tracks, 1 ≤ tr.number) →
      T.absLoop t i c fuel = .ok T' →
      ∀ s j, 1 ≤ s → ¬((s, j) = (t, i) ∨ pairLt (t, i) (s, j)) →
        T'.idxAt? s j = T.idxAt? s j := by
  intro fuel
  induction fuel with
  | zero =>
    intro T t i c T' _ _ h
    rw [Table.absLoop] at h
    exact Except.noConfusion h
  | succ fuel ih =>
    intro T t i c T' hnd hpos h s j hs hcond
    obtain ⟨tr, ix, htr, hix, hnum, hixn, hrest⟩ :=
      absLoop_ok_inv T t i c fuel T' h
    have ht1 : 1 ≤ t := hnum ▸ hpos tr (trackAt?_mem htr)
    have hwrite :
        (T.writeIdx t i (fun k => { k with absolute := k.relative })).idxAt?
          s j = T.idxAt? s j := by
      rw [idxAt?_writeIdx T t i (fun k => { k with absolute := k.relative })
        (fun z => rfl) s j]
      rw [if_neg ?_]
      intro hcell
      exact hcond (Or.inl (by
        have : s = t := by omega
        exact Prod.ext this hcell.2))
    rcases hrest with ⟨_, heq⟩ | ⟨hc, hcn, habs, hnext⟩
    · rw [heq]
    · have hsh := writeIdx_shape T t i
        (fun k => { k with absolute := k.relative }) (fun k => rfl)
      rcases hnext with ⟨_, heq⟩ | ⟨t2, i2, hok, hrec⟩
      · rw [heq]
        exact hwrite
      · have hnd2 : NodupKeys (T.writeIdx t i
            (fun k => { k with absolute := k.relative })) :=
          NodupKeys_of_shape hsh hnd
        have hpos2 := pos_of_shape hsh hpos
        have hlt : pairLt (t, i) (t2, i2) := by
          refine getNext_lt _ t i t2 i2
            (tr.writeIndex i (fun k => { k with absolute := k.relative }))
            (trackAt?_writeIdx_self T t i
              (fun k => { k with absolute := k.relative }) tr htr) ?_ ht1 hok
          rw [writeIndex_map_number tr i
            (fun k => { k with absolute := k.relative }) (fun k => rfl)]
          exact hnd tr (trackAt?_mem htr)
        have hcond2 : ¬((s, j) = (t2, i2) ∨ pairLt (t2, i2) (s, j)) := by
          intro hx
          rcases hx with hx | hx
          · exact hcond (Or.inr (hx ▸ hlt))
          · exact hcond (Or.inr (pairLt_trans hlt hx))
        rw [ih _ t2 i2 c T' hnd2 hpos2 hrec s j hs hcond2]
        exact hwrite

/-- A dictionary write whose function fixes every entry at the key is the
identity. -/
theorem writeIdx_eq_self (T : Table) (t i : Nat) (f : Index → Index)
    (tr : Track) (htr : T.trackAt? t = some tr)
    (hfix : ∀ z ∈ tr.indexes, z.number = i → f z = z) :
    T.writeIdx t i f = T := by
  have hmod : listModify T.tracks (t - 1) (fun tr2 => tr2.writeIndex i f)
      = T.tracks := by
    apply listModify_eq_self
    intro a ha
    rw [Table.trackAt?] at htr
    rw [htr] at ha
    obtain rfl : tr = a := by simpa using ha
    rw [Track.writeIndex]
    have hmap : tr.indexes.map (fun z => if z.number = i then f z else z)
        = tr.indexes := by
      conv_rhs => rw [← List.map_id tr.indexes]
      apply List.map_congr_left
      intro z hz
      show (if z.number = i then f z else z) = z
      by_cases hzi : z.number = i
      · rw [if_pos hzi]
        exact hfix z hz hzi
      · rw [if_neg hzi]
    rw [hmap]
  rw [Table.writeIdx, hmod]

/-- Revisiting an already-resolved cell (the state after the first run's
write): the iteration re-reads the written value, writes it back
unchanged, and moves on exactly as before. -/
theorem absLoop_revisit (T2 : Table) (t i : Nat) (c : Option Int)
    (fuel : Nat) (tr2 : Track) (ix : Index)
    (hA : T2.trackAt? t = some tr2)
    (hB : tr2.getIndex? i = some { ix with absolute := ix.relative })
    (hC : tr2.number = t) (hD : ix.number = i)
    (hhc : ix.counter = c) (hhcn : ix.counter ≠ none)
    (hnd : (tr2.indexes.map Index.number).Nodup) :
    T2.absLoop t i c (fuel + 1) =
      (match T2.getNextTrackIndex t i with
       | .error .indexError => .ok T2
       | .error e => .error e
       | .ok (t2, i2) => T2.absLoop t2 i2 c fuel) := by
  have hwid : T2.writeIdx t i (fun j => { j with absolute := j.relative })
      = T2 := by
    apply writeIdx_eq_self T2 t i _ tr2 hA
    intro z hz hzn
    have hz2 : z = { ix with absolute := ix.relative } :=
      lookupIdx_unique tr2.indexes hnd i _ hB z hz hzn
    rw [hz2]
  rw [absLoop_step_eq T2 t i c fuel tr2 { ix with absolute := ix.relative }
    hA hB hC hD]
  rw [if_neg (show ¬(({ ix with absolute := ix.relative } : Index).counter
      = none) from hhcn),
    if_neg (not_ne_iff.2 (show ({ ix with absolute := ix.relative } : Index).counter
      = c from hhc)),
    if_neg (show ¬(({ ix with absolute := ix.relative } : Index).absolute
        ≠ none ∧
      ({ ix with absolute := ix.relative } : Index).absolute
        ≠ ({ ix with absolute := ix.relative } : Index).relative) from
      fun hh => hh.2 rfl),
    hwid]

/-- The result of a successful `absolutize` loop run is a fixed point of
the same run. -/
theorem absLoop_fix :
    ∀ (fuel : Nat) (T : Table) (t i : Nat) (c : Option Int) (T' : Table),
      NodupKeys T → (∀ tr ∈ T.tracks, 1 ≤ tr.number) →
      T.absLoop t i c fuel = .ok T' →
      T'.absLoop t i c fuel = .ok T' := by
  intro fuel
  induction fuel with
  | zero =>
    intro T t i c T' _ _ h
    rw [Table.absLoop] at h
    exact Except.noConfusion h
  | succ fuel ih =>
    intro T t i c T' hnd hpos h
    obtain ⟨tr, ix, htr, hix, hnum, hixn, hrest⟩ :=
      absLoop_ok_inv T t i c fuel T' h
    have ht1 : 1 ≤ t := hnum ▸ hpos tr (trackAt?_mem htr)
    rcases hrest with ⟨hbr, heq⟩ | ⟨hc, hcn, habs, hnext⟩
    · rw [heq]
      rw [absLoop_step_eq T t i c fuel tr ix htr hix hnum hixn]
      rcases hbr with hbr | hbr
      · rw [if_pos hbr]
      · by_cases hn : ix.counter = none
        · rw [if_pos hn]
        · rw [if_neg hn, if_pos hbr]
    · have hsh := writeIdx_shape T t i
        (fun k => { k with absolute := k.relative }) (fun k => rfl)
      have hnd2 : NodupKeys (T.writeIdx t i
          (fun k => { k with absolute := k.relative })) :=
        NodupKeys_of_shape hsh hnd
      have hpos2 := pos_of_shape hsh hpos
      have hA2 : (T.writeIdx t i
          (fun k => { k with absolute := k.relative })).trackAt? t =
          some (tr.writeIndex i (fun k => { k with absolute := k.relative })) :=
        trackAt?_writeIdx_self T t i
          (fun k => { k with absolute := k.relative }) tr htr
      have hB2 : (tr.writeIndex i
          (fun k => { k with absolute := k.relative })).getIndex? i =
          some ({ ix with absolute := ix.relative }) := by
        rw [getIndex?_writeIndex tr i i
          (fun k => { k with absolute := k.relative }) (fun k => rfl),
          if_pos rfl, hix]
        rfl
      have hnd2tr : ((tr.writeIndex i
          (fun k => { k with absolute := k.relative })).indexes.map
            Index.number).Nodup := by
        rw [writeIndex_map_number tr i
          (fun k => { k with absolute := k.relative }) (fun k => rfl)]
        exact hnd tr (trackAt?_mem htr)
      rcases hnext with ⟨hstop, heq⟩ | ⟨t2, i2, hok, hrec⟩
      · rw [heq]
        rw [absLoop_revisit _ t i c fuel
          (tr.writeIndex i (fun k => { k with absolute := k.relative })) ix
          hA2 hB2 hnum hixn hc hcn hnd2tr]
        simp only [hstop]
      · have hIH := ih _ t2 i2 c T' hnd2 hpos2 hrec
        have hshr : SameShape T'
            (T.writeIdx t i (fun k => { k with absolute := k.relative })) :=
          absLoop_shape fuel _ t2 i2 c T' hrec
        have hlt : pairLt (t, i) (t2, i2) := by
          refine getNext_lt _ t i t2 i2
            (tr.writeIndex i (fun k => { k with absolute := k.relative }))
            hA2 hnd2tr ht1 hok
        have hcell : T'.idxAt? t i =
            (T.writeIdx t i
              (fun k => { k with absolute := k.relative })).idxAt? t i := by
          refine absLoop_preserves_earlier fuel _ t2 i2 c T' hnd2 hpos2 hrec
            t i ht1 ?_
          intro hx
          rcases hx with hx | hx
          · rw [hx] at hlt
            rcases hlt.2 with hy | hy
            · omega
            · omega
          · rcases hlt.2 with hy | hy <;> rcases hx.2 with hz | hz <;> omega
        have hcell2 : (T.writeIdx t i
            (fun k => { k with absolute := k.relative })).idxAt? t i =
            some ({ ix with absolute := ix.relative }) := by
          rw [Table.idxAt?, hA2]
          exact hB2
        cases hT't : T'.tracks[t - 1]? with
        | none =>
          have hx := hshr.2 (t - 1)
          rw [hT't] at hx
          rw [show (T.writeIdx t i
              (fun k => { k with absolute := k.relative })).tracks[t - 1]? =
              some (tr.writeIndex i
                (fun k => { k with absolute := k.relative })) from hA2] at hx
          simp at hx
        | some tr' =>
          have hx := hshr.2 (t - 1)
          rw [hT't] at hx
          rw [show (T.writeIdx t i
              (fun k => { k with absolute := k.relative })).tracks[t - 1]? =
              some (tr.writeIndex i
                (fun k => { k with absolute := k.relative })) from hA2] at hx
          simp only [Option.map_some', Option.some.injEq, trackShape,
            Prod.mk.injEq] at hx
          have hA' : T'.trackAt? t = some tr' := hT't
          have hB' : tr'.getIndex? i = some ({ ix with absolute := ix.relative }) := by
            have := hcell
            rw [Table.idxAt?, hA', hcell2] at this
            exact this
          have hnd'tr : (tr'.indexes.map Index.number).Nodup := by
            rw [hx.2]
            exact hnd2tr
          rw [absLoop_revisit T' t i c fuel tr' ix hA' hB'
            (by rw [hx.1]; exact hnum) hixn hc hcn hnd'tr]
          rw [getNext_shape hshr t i]
          simp only [hok]
          exact hIH

/-- C7: on a table with consecutively numbered tracks and per-track
distinct index numbers, a second `absolutize` immediately after a
successful one succeeds and returns the very same table — no
inconsistency is signaled and no offset changes. -/
theorem C7_absolutize_idem (T T' : Table) (hN : Numbered T)
    (hnd : NodupKeys T) (h : T.absolutize = .ok T') :
    T'.absolutize = .ok T' := by
  rw [Table.absolutize] at h
  cases h0 : T.tracks[0]? with
  | none => simp only [h0] at h; exact Except.noConfusion h
  | some tr0 =>
    simp only [h0] at h
    cases h1 : tr0.getFirstIndex? with
    | none => simp only [h1] at h; exact Except.noConfusion h
    | some ix0 =>
      simp only [h1] at h
      have hpos := numbered_pos hN
      have hfix := absLoop_fix (T.indexCount + 1) T tr0.number ix0.number
        ix0.counter T' hnd hpos h
      have hsh : SameShape T' T :=
        absLoop_shape (T.indexCount + 1) T tr0.number ix0.number
          ix0.counter T' h
      rw [Track.getFirstIndex?] at h1
      obtain ⟨k, hk, hgk⟩ := Option.bind_eq_some.1 h1
      have hix0n : ix0.number = k := (lookupIdx_mem tr0.indexes k ix0 hgk).2
      have hcell : (T'.idxAt? 1 k).map eraseAbs =
          (T.idxAt? 1 k).map eraseAbs :=
        absLoop_absOnly (T.indexCount + 1) T tr0.number ix0.number
          ix0.counter T' h 1 k
      have hTcell : T.idxAt? 1 k = some ix0 := by
        rw [Table.idxAt?, Table.trackAt?]
        simp only [Nat.sub_self]
        rw [h0]
        exact hgk
      rw [hTcell] at hcell
      obtain ⟨ix0', hix0', herase⟩ := Option.map_eq_some'.1 hcell
      have hcounter : ix0'.counter = ix0.counter := by
        have h3 := congrArg Index.counter herase
        exact h3
      cases hT'0 : T'.tracks[0]? with
      | none =>
        have hx := hsh.2 0
        rw [hT'0, h0] at hx
        simp at hx
      | some tr0' =>
        have hx := hsh.2 0
        rw [hT'0, h0] at hx
        simp only [Option.map_some', Option.some.injEq, trackShape,
          Prod.mk.injEq] at hx
        have hkeys : tr0'.dictKeys = tr0.dictKeys := by
          rw [Track.dictKeys, Track.dictKeys, hx.2]
        have hget' : tr0'.getIndex? k = some ix0' := by
          have h2 := hix0'
          rw [Table.idxAt?, Table.trackAt?] at h2
          simp only [Nat.sub_self] at h2
          rw [hT'0] at h2
          exact h2
        have hix0'n : ix0'.number = k := (lookupIdx_mem tr0'.indexes k ix0' hget').2
        have hfirst' : tr0'.getFirstIndex? = some ix0' := by
          rw [Track.getFirstIndex?, hkeys, hk]
          exact hget'
        rw [Table.absolutize]
        simp only [hT'0, hfirst']
        rw [hx.1, hix0'n, ← hix0n, hcounter, indexCount_of_shape hsh]
        exact hfix

/-- Witness for C7: `absolutize` on `tableC7` yields `tableC7res`, and a
second run returns it unchanged. -/
theorem C7_witness :
    tableC7.absolutize = .ok tableC7res ∧
      tableC7res.absolutize = .ok tableC7res :=
  ⟨by decide,
    C7_absolutize_idem tableC7 tableC7res (by unfold Numbered; decide)
      (by unfold NodupKeys; decide) (by decide)⟩

/-!  Counting `FLAGS PRE` lines in the cue serialization. -/

/-- Two strings differing at a character position under the length of a
common-length-bounded head differ as strings, whatever the appended
tail. -/
theorem str_ne_head (p q : String) (n : Nat) (hn : n < p.data.length)
    (h : p.data[n]? ≠ q.data[n]?) (v : String) : p ++ v ≠ q := by
  intro he
  apply h
  have h2 : (p ++ v).data = q.data := by rw [he]
  rw [String.data_append] at h2
  rw [← h2, List.getElem?_append_left hn]

/-- Variant with two appended tails. -/
theorem str_ne_head2 (p q : String) (n : Nat) (hn : n < p.data.length)
    (h : p.data[n]? ≠ q.data[n]?) (v w : String) : p ++ v ++ w ≠ q := by
  rw [String.append_assoc]
  exact str_ne_head p q n hn h (v ++ w)

theorem countFlags_append : ∀ (a b : List String),
    countFlags (a ++ b) = countFlags a + countFlags b := by
  intro a b
  induction a with
  | nil => rw [List.nil_append, countFlags]; omega
  | cons x xs ih =>
    rw [List.cons_append, countFlags, countFlags, ih]
    omega

theorem countFlags_eq_zero : ∀ l : List String,
    (∀ x ∈ l, x ≠ "    FLAGS PRE") → countFlags l = 0 := by
  intro l
  induction l with
  | nil => intro _; rfl
  | cons x xs ih =>
    intro hl
    rw [countFlags, if_neg (hl x (List.mem_cons_self x xs)),
      ih (fun y hy => hl y (List.mem_cons_of_mem x hy))]

/-- No per-track CD-Text line is the `FLAGS PRE` line. -/
theorem countFlags_trackCdtext (tr : Track) :
    countFlags (trackCdtextLines tr) = 0 := by
  apply countFlags_eq_zero
  intro x hx
  obtain ⟨key, hkey, hg⟩ := List.mem_filterMap.1 hx
  obtain ⟨v, _, hv⟩ := Option.map_eq_some'.1 hg
  rw [← hv]
  simp only [CDTEXT_FIELDS, List.mem_cons, List.not_mem_nil, or_false] at hkey
  rcases hkey with rfl | rfl | rfl | rfl | rfl | rfl | rfl | rfl | rfl | rfl |
    rfl | rfl | rfl <;>
    exact str_ne_head2 _ _ 4 (by decide) (by decide) _ _

/-- No disc-level CD-Text header line is the `FLAGS PRE` line. -/
theorem countFlags_headerCdtext (T : Table) :
    countFlags (headerCdtextLines T) = 0 := by
  apply countFlags_eq_zero
  intro x hx
  obtain ⟨key, hkey, hg⟩ := List.mem_filterMap.1 hx
  by_cases hmain : key = "PERFORMER" ∨ key = "TITLE"
  · rw [if_pos hmain] at hg
    exact Option.noConfusion hg
  · rw [if_neg hmain] at hg
    obtain ⟨v, _, hv⟩ := Option.map_eq_some'.1 hg
    rw [← hv]
    simp only [CDTEXT_FIELDS, List.mem_cons, List.not_mem_nil, or_false] at hkey
    rcases hkey with rfl | rfl | rfl | rfl | rfl | rfl | rfl | rfl | rfl | rfl |
      rfl | rfl | rfl <;>
      exact str_ne_head _ _ 4 (by decide) (by decide) _

/-- The optional `FILE` lines are never the `FLAGS PRE` line. -/
theorem countFlags_pathFileLines (path : Option String) :
    countFlags (pathFileLines path) = 0 := by
  cases path with
  | none => rfl
  | some p =>
    rw [pathFileLines]
    by_cases hp : pyTruthyStr (some p)
    · rw [if_pos hp, countFlags,
        if_neg (show ¬(writeFileLine p = "    FLAGS PRE") from
          str_ne_head2 "FILE \"" _ 0 (by decide) (by decide)
            (getRelativePath p) "\" WAVE"), countFlags]
    · rw [if_neg hp]
      rfl

theorem countFlags_cueFileLines (index : Index) (counter : Option Int) :
    countFlags (cueFileLines index counter) = 0 := by
  rw [cueFileLines]
  by_cases hgt : pyGtOpt index.counter counter
  · rw [if_pos hgt, countFlags_pathFileLines]
  · rw [if_neg hgt]
    rfl

/-- The `TRACK` header block has exactly one `FLAGS PRE` line when
`pre_emphasis` is not `None`, none otherwise. -/
theorem countFlags_cueTrackHeader (pos : Nat) (tr : Track) :
    countFlags (cueTrackHeader pos tr) =
      if tr.pre_emphasis = none then 0 else 1 := by
  rw [cueTrackHeader, countFlags,
    if_neg (str_ne_head2 "  TRACK " _ 2 (by decide) (by decide)
      (pyFormatDec 2 ((pos : Int) + 1)) " AUDIO"),
    countFlags_append, countFlags_append, countFlags_trackCdtext]
  have hisrc : countFlags (match tr.isrc with
      | some s => ["    ISRC " ++ s] | none => []) = 0 := by
    cases hi : tr.isrc with
    | none => rfl
    | some s =>
      rw [countFlags,
        if_neg (str_ne_head "    ISRC " _ 4 (by decide) (by decide) s),
        countFlags]
  rw [hisrc]
  by_cases hpre : tr.pre_emphasis = none
  · rw [if_pos hpre, if_pos hpre, countFlags]
  · rw [if_neg hpre, if_neg hpre, countFlags, if_pos rfl, countFlags]

/-- Variant with three appended tails. -/
theorem str_ne_head3 (p q : String) (n : Nat) (hn : n < p.data.length)
    (h : p.data[n]? ≠ q.data[n]?) (v w x : String) :
    p ++ v ++ w ++ x ≠ q := by
  rw [String.append_assoc, String.append_assoc]
  exact str_ne_head p q n hn h (v ++ (w ++ x))

/-- An `INDEX NN mm:ss:ff` line is never the `FLAGS PRE` line. -/
theorem indexLine_ne (n rel : Int) : indexLine n rel ≠ "    FLAGS PRE" :=
  str_ne_head3 "    INDEX " _ 4 (by decide) (by decide)
    (pyFormatDec 2 n) " " (framesToMSF rel)

/-- `FLAGS PRE` lines of one index iteration: exactly one when this
iteration writes the `TRACK` header of a track with `pre_emphasis` not
`None`, none otherwise. -/
theorem cueIndexStep_count (pos : Nat) (tr : Track) (indexOne : Index)
    (number : Nat) (counter : Option Int) (wrote : Bool)
    (delta : List String) (c2 : Option Int)
    (h : cueIndexStep pos tr indexOne number counter wrote = .ok (delta, c2)) :
    countFlags delta = if wrote then 0
      else (if tr.pre_emphasis = none then 0 else 1) := by
  simp only [cueIndexStep] at h
  cases hget : tr.getIndex? number with
  | none => simp only [hget] at h; exact Except.noConfusion h
  | some index =>
    simp only [hget] at h
    cases wrote with
    | true =>
      simp only [if_true] at h
      rw [if_pos rfl]
      by_cases hn : number > 0
      · rw [if_pos hn] at h
        cases hrel : index.relative with
        | none => simp only [hrel] at h; exact Except.noConfusion h
        | some rel =>
          simp only [hrel, Except.ok.injEq, Prod.mk.injEq] at h
          rw [← h.1, countFlags_append, countFlags_cueFileLines, countFlags,
            if_neg (indexLine_ne (number : Int) rel), countFlags]
      · rw [if_neg hn] at h
        simp only [Except.ok.injEq, Prod.mk.injEq] at h
        rw [← h.1, countFlags_cueFileLines]
    | false =>
      simp only [Bool.false_eq_true, if_false] at h
      rw [if_neg (by simp : ¬(false = true))]
      by_cases h0k : 0 ∈ tr.dictKeys
      · rw [if_pos h0k] at h
        cases h00 : tr.getIndex? 0 with
        | none => simp only [h00] at h; exact Except.noConfusion h
        | some index00 =>
          simp only [h00] at h
          by_cases hpg : pos = 0 ∧ pyTruthyStr index00.path = false
          · rw [if_pos hpg] at h
            cases ha1 : indexOne.absolute with
            | none =>
              simp only [ha1] at h
              exact Except.noConfusion h
            | some a1 =>
              simp only [ha1] at h
              cases ha0 : index00.absolute with
              | none => simp only [ha0] at h; exact Except.noConfusion h
              | some a0 =>
                simp only [ha0, Except.ok.injEq, Prod.mk.injEq] at h
                rw [← h.1, countFlags_append, countFlags_append,
                  countFlags_cueFileLines, countFlags_cueTrackHeader,
                  countFlags,
                  if_neg (str_ne_head "    PREGAP " _ 4 (by decide)
                    (by decide) (framesToMSF (a1 - a0))),
                  countFlags]
                simp
          · rw [if_neg hpg] at h
            cases hrel0 : index00.relative with
            | none => simp only [hrel0] at h; exact Except.noConfusion h
            | some rel0 =>
              simp only [hrel0] at h
              by_cases hn : number > 0
              · rw [if_pos hn] at h
                cases hrel : index.relative with
                | none => simp only [hrel] at h; exact Except.noConfusion h
                | some rel =>
                  simp only [hrel, Except.ok.injEq, Prod.mk.injEq] at h
                  rw [← h.1, countFlags_append, countFlags_append,
                    countFlags_cueFileLines, countFlags_cueTrackHeader,
                    countFlags, if_neg (indexLine_ne (0 : Int) rel0),
                    countFlags, if_neg (indexLine_ne (number : Int) rel),
                    countFlags]
                  simp
              · rw [if_neg hn] at h
                simp only [Except.ok.injEq, Prod.mk.injEq] at h
                rw [← h.1, countFlags_append, countFlags_append,
                  countFlags_cueFileLines, countFlags_cueTrackHeader,
                  countFlags, if_neg (indexLine_ne (0 : Int) rel0),
                  countFlags]
                simp
      · rw [if_neg h0k] at h
        by_cases hn : number > 0
        · rw [if_pos hn] at h
          cases hrel : index.relative with
          | none => simp only [hrel] at h; exact Except.noConfusion h
          | some rel =>
            simp only [hrel, Except.ok.injEq, Prod.mk.injEq] at h
            rw [← h.1, countFlags_append, countFlags_append,
              countFlags_cueFileLines, countFlags_cueTrackHeader,
              countFlags, if_neg (indexLine_ne (number : Int) rel),
              countFlags]
            simp
        · rw [if_neg hn] at h
          simp only [Except.ok.injEq, Prod.mk.injEq] at h
          rw [← h.1, countFlags_append, countFlags_cueFileLines,
            countFlags_cueTrackHeader]
          simp

/-- `FLAGS PRE` lines of one track's index loop: exactly one when the
key list is nonempty, the header was not yet written and `pre_emphasis`
is not `None`. -/
theorem cueTrackFold_count (pos : Nat) (tr : Track) (indexOne : Index) :
    ∀ (ks : List Nat) (counter : Option Int) (wrote : Bool)
      (out : List String) (c2 : Option Int),
      cueTrackFold pos tr indexOne ks counter wrote = .ok (out, c2) →
      countFlags out = if wrote = true ∨ ks = [] then 0
        else (if tr.pre_emphasis = none then 0 else 1) := by
  intro ks
  induction ks with
  | nil =>
    intro counter wrote out c2 h
    rw [cueTrackFold] at h
    obtain ⟨h1, _⟩ : ([] : List String) = out ∧ counter = c2 := by
      simpa using h
    rw [← h1, if_pos (Or.inr rfl), countFlags]
  | cons number rest ih =>
    intro counter wrote out c2 h
    rw [cueTrackFold] at h
    cases hstep : cueIndexStep pos tr indexOne number counter wrote with
    | error e => simp only [hstep] at h; exact Except.noConfusion h
    | ok pr =>
      obtain ⟨delta, counter2⟩ := pr
      simp only [hstep] at h
      cases hfold : cueTrackFold pos tr indexOne rest counter2 true with
      | error e => simp only [hfold] at h; exact Except.noConfusion h
      | ok pr2 =>
        obtain ⟨more, counter3⟩ := pr2
        simp only [hfold] at h
        obtain ⟨h1, _⟩ : delta ++ more = out ∧ counter3 = c2 := by
          simpa using h
        rw [← h1, countFlags_append,
          cueIndexStep_count pos tr indexOne number counter wrote delta
            counter2 hstep,
          ih counter2 true more counter3 hfold,
          if_pos (Or.inl rfl)]
        cases wrote with
        | true => rw [if_pos rfl, if_pos (Or.inl rfl)]
        | false =>
          rw [if_neg (by simp : ¬(false = true)),
            if_neg (by simp : ¬((false = true) ∨ number :: rest = []))]
          omega

/-- `dictKeys` is empty exactly when the index dictionary is. -/
theorem dictKeys_length (tr : Track) :
    tr.dictKeys.length = tr.indexes.length := by
  rw [Track.dictKeys,
    (List.perm_insertionSort (· ≤ ·) (tr.indexes.map Index.number)).length_eq,
    List.length_map]

theorem dictKeys_isEmpty (tr : Track) :
    (tr.dictKeys = []) ↔ tr.indexes.isEmpty = true := by
  rw [List.isEmpty_iff]
  constructor
  · intro h
    have hlen := congrArg List.length h
    rw [dictKeys_length] at hlen
    simp only [List.length_nil] at hlen
    exact List.length_eq_zero.1 hlen
  · intro h
    rw [Track.dictKeys, h]
    rfl

/-- `FLAGS PRE` lines of one enumerated track: exactly one for a
qualifying track. -/
theorem cueTrackLines_count (indexOne : Index) (pos : Nat) (tr : Track)
    (counter : Option Int) (delta : List String) (c2 : Option Int)
    (h : cueTrackLines indexOne (pos, tr) counter = .ok (delta, c2)) :
    countFlags delta = if flagsTrack tr = true then 1 else 0 := by
  rw [cueTrackLines] at h
  by_cases haudio : tr.audio = true
  · rw [if_pos haudio] at h
    have hcount := cueTrackFold_count pos tr indexOne tr.dictKeys counter
      false delta c2 h
    rw [hcount]
    by_cases hks : tr.dictKeys = []
    · rw [if_pos (Or.inr hks)]
      rw [if_neg ?_]
      rw [flagsTrack]
      have : tr.indexes.isEmpty = true := (dictKeys_isEmpty tr).1 hks
      rw [this]
      simp
    · rw [if_neg (by
        intro hx
        rcases hx with hx | hx
        · exact absurd hx (by simp)
        · exact hks hx)]
      have hne : tr.indexes.isEmpty = false := by
        cases hx : tr.indexes.isEmpty with
        | false => rfl
        | true => exact absurd ((dictKeys_isEmpty tr).2 hx) hks
      by_cases hpre : tr.pre_emphasis = none
      · rw [if_pos hpre, if_neg ?_]
        rw [flagsTrack]
        rw [hpre, hne]
        simp
      · rw [if_neg hpre, if_pos ?_]
        rw [flagsTrack]
        rw [hne, haudio]
        cases hp : tr.pre_emphasis with
        | none => exact absurd hp hpre
        | some b => simp
  · rw [if_neg haudio] at h
    obtain ⟨h1, _⟩ : ([] : List String) = delta ∧ counter = c2 := by
      simpa using h
    rw [← h1, countFlags, if_neg ?_]
    rw [flagsTrack]
    have : tr.audio = false := by
      cases hx : tr.audio with
      | false => rfl
      | true => exact absurd hx haudio
    rw [this]
    simp

/-- `FLAGS PRE` lines of the whole per-track section: one per
qualifying track. -/
theorem cueTracksFold_count (indexOne : Index) :
    ∀ (pts : List (Nat × Track)) (counter : Option Int)
      (out : List String) (c2 : Option Int),
      cueTracksFold indexOne pts counter = .ok (out, c2) →
      countFlags out = (pts.filter (fun pt => flagsTrack pt.2)).length := by
  intro pts
  induction pts with
  | nil =>
    intro counter out c2 h
    rw [cueTracksFold] at h
    obtain ⟨h1, _⟩ : ([] : List String) = out ∧ counter = c2 := by
      simpa using h
    rw [← h1, countFlags, List.filter_nil, List.length_nil]
  | cons pt rest ih =>
    intro counter out c2 h
    rw [cueTracksFold] at h
    cases hstep : cueTrackLines indexOne pt counter with
    | error e => simp only [hstep] at h; exact Except.noConfusion h
    | ok pr =>
      obtain ⟨delta, counter2⟩ := pr
      simp only [hstep] at h
      cases hfold : cueTracksFold indexOne rest counter2 with
      | error e => simp only [hfold] at h; exact Except.noConfusion h
      | ok pr2 =>
        obtain ⟨more, counter3⟩ := pr2
        simp only [hfold] at h
        obtain ⟨h1, _⟩ : delta ++ more = out ∧ counter3 = c2 := by
          simpa using h
        obtain ⟨pos, tr⟩ := pt
        rw [← h1, countFlags_append,
          cueTrackLines_count indexOne pos tr counter delta counter2 hstep,
          ih counter2 more counter3 hfold, List.filter_cons]
        by_cases hq : flagsTrack tr = true
        · rw [if_pos (by simpa using hq), if_pos hq, List.length_cons]
          omega
        · rw [if_neg (by simpa using hq), if_neg hq]
          omega

/-- Enumeration does not change which tracks qualify. -/
theorem enumFrom_filter_len :
    ∀ (l : List Track) (n : Nat),
      ((enumFrom n l).filter (fun pt => flagsTrack pt.2)).length =
        (l.filter flagsTrack).length := by
  intro l
  induction l with
  | nil => intro n; rfl
  | cons tr rest ih =>
    intro n
    rw [enumFrom, List.filter_cons, List.filter_cons]
    by_cases hq : flagsTrack tr = true
    · rw [if_pos (by simpa using hq), if_pos hq, List.length_cons,
        List.length_cons, ih]
    · rw [if_neg (by simpa using hq), if_neg hq, ih]

/-- No header-block line is the `FLAGS PRE` line. -/
theorem countFlags_cueHeaderLines (T : Table) (discid : String) :
    countFlags (cueHeaderLines T discid) = 0 := by
  rw [cueHeaderLines, countFlags_append, countFlags_headerCdtext, countFlags,
    if_neg (str_ne_head "REM DISCID " _ 0 (by decide) (by decide)
      (pyUpper discid)),
    countFlags,
    if_neg (str_ne_head2 "REM COMMENT \"whipper " _ 0 (by decide) (by decide)
      whipperVersion "\""),
    countFlags_append]
  have hcat : countFlags (match T.catalog with
      | some c => if pyTruthyStr (some c) then ["CATALOG " ++ c] else []
      | none => []) = 0 := by
    cases hc : T.catalog with
    | none => rfl
    | some c =>
      show countFlags
        (if pyTruthyStr (some c) = true then ["CATALOG " ++ c] else []) = 0
      by_cases ht : pyTruthyStr (some c)
      · rw [if_pos ht, countFlags,
          if_neg (str_ne_head "CATALOG " _ 0 (by decide) (by decide) c),
          countFlags]
      · rw [if_neg ht]
        rfl
  rw [hcat]
  have hpt : countFlags (["PERFORMER", "TITLE"].filterMap (fun key =>
      (T.cdtext.lookup key).map (fun v => key ++ " \"" ++ v ++ "\""))) = 0 := by
    apply countFlags_eq_zero
    intro x hx
    obtain ⟨key, hkey, hg⟩ := List.mem_filterMap.1 hx
    obtain ⟨v, _, hv⟩ := Option.map_eq_some'.1 hg
    rw [← hv]
    simp only [List.mem_cons, List.not_mem_nil, or_false] at hkey
    rcases hkey with rfl | rfl <;>
      exact str_ne_head2 _ _ 0 (by decide) (by decide) _ _
  rw [hpt]

/-- C9 (amended): a successful cue serialization contains exactly one
`    FLAGS PRE` line per audio track that has at least one index and
whose `pre_emphasis` is not `None` — the source emits the flag whenever
`pre_emphasis is not None`, so an explicit `False` also produces it. -/
theorem C9_amended (T : Table) (ls : List String)
    (h : T.cueLines = .ok ls) :
    countFlags ls = (T.tracks.filter flagsTrack).length := by
  rw [Table.cueLines] at h
  by_cases htoc : T.hasTOC = true
  · rw [if_pos htoc] at h
    cases hd : T.getCDDBDiscId with
    | error e => simp only [hd] at h; exact Except.noConfusion h
    | ok discid =>
      simp only [hd] at h
      cases h0 : T.tracks[0]? with
      | none => simp only [h0] at h; exact Except.noConfusion h
      | some firstTrack =>
        simp only [h0] at h
        cases h1 : firstTrack.getFirstIndex? with
        | none => simp only [h1] at h; exact Except.noConfusion h
        | some index0 =>
          simp only [h1] at h
          cases h2 : firstTrack.getIndex? 1 with
          | none => simp only [h2] at h; exact Except.noConfusion h
          | some indexOne =>
            simp only [h2] at h
            cases hw : firstFileWalk T (T.indexCount + 1) firstTrack index0
                index0.counter with
            | error e => simp only [hw] at h; exact Except.noConfusion h
            | ok pr =>
              obtain ⟨tr1, index, counter⟩ := pr
              simp only [hw] at h
              cases hf : cueTracksFold indexOne (enumFrom 0 T.tracks)
                  counter with
              | error e => simp only [hf] at h; exact Except.noConfusion h
              | ok pr2 =>
                obtain ⟨body, cend⟩ := pr2
                simp only [hf] at h
                obtain hls : cueHeaderLines T discid ++
                    pathFileLines index.path ++ body = ls := by
                  simpa using h
                rw [← hls, countFlags_append, countFlags_append,
                  countFlags_cueHeaderLines, countFlags_pathFileLines,
                  cueTracksFold_count indexOne (enumFrom 0 T.tracks) counter
                    body cend hf,
                  enumFrom_filter_len]
                omega
  · rw [if_neg htoc] at h
    exact Except.noConfusion h

/-- C9 counterexample: `tableC9`'s only track has `pre_emphasis = some
false` — the flag is present but not set — yet the cue output contains
the `FLAGS PRE` line (the source tests `is not None`, not truth). -/
theorem C9_counterexample :
    tableC9.cueLines = .ok cueC9lines ∧ "    FLAGS PRE" ∈ cueC9lines ∧
      ∀ tr ∈ tableC9.tracks, tr.pre_emphasis = some false :=
  ⟨by decide, by decide, by decide⟩

/-- Witness for C9 (amended) at `tableC9`: one qualifying track, one
`FLAGS PRE` line. -/
theorem C9_amended_witness :
    countFlags cueC9lines = (tableC9.tracks.filter flagsTrack).length :=
  C9_amended tableC9 cueC9lines (by decide)
